import Mathlib

/-!
# Verification of the review-pilot diff-analysis pipeline

A shallow embedding of the core of the code-review pipeline
(diff parser, position mapper, policy engine, finding synthesizer,
review-event selection, orchestrator) together with theorems about it.

JavaScript strings are modelled as lists of characters (`Str`), so that
every definition is executable inside the kernel.  JavaScript `Map`
objects are modelled as insertion-ordered association lists, mirroring
the iteration-order guarantees of the ECMAScript specification.
`Array.prototype.sort` (guaranteed stable since ES2019) is modelled by
the stable `List.mergeSort`.  The two external library functions used by
the code, `minimatch` (glob matching) and `RegExp` compilation/testing,
are taken as parameters of the embedding: a glob matcher has type
`Str → Str → Bool` (path, pattern) and a regex compiler has type
`Str → Option (Str → Bool)` (`none` models a pattern whose compilation
throws).  `String.prototype.localeCompare` is modelled as code-point
lexicographic comparison.
-/

namespace ReviewPilot

/-- A JavaScript string, as its sequence of characters. -/
abbrev Str : Type := List Char

/-- Embedding of JavaScript `s.startsWith(p)`. -/
def strStartsWith (s p : Str) : Bool := p.isPrefixOf s

/-- The one-character string consisting of the plus sign. -/
def plusStr : Str := ['+']

/-- The one-character string consisting of the minus sign. -/
def minusStr : Str := ['-']

/-- Embedding of JavaScript `s.split("\n")`: splitting on the newline
character, where the empty string yields `[""]`. -/
def jsSplitLines (s : Str) : List Str :=
  match s with
  | [] => [[]]
  | c :: rest =>
    let r := jsSplitLines rest
    if c = '\n' then [] :: r
    else
      match r with
      | [] => [[c]]
      | h :: t => (c :: h) :: t

/-- Decimal rendering of a natural number, as used by JavaScript
template-string interpolation of a number. -/
def numChars (n : Nat) : Str := (Nat.repr n).data

/-- Embedding of JavaScript `parts.join("\n")`. -/
def joinNL : List Str → Str
  | [] => []
  | [x] => x
  | x :: rest => x ++ '\n' :: joinNL rest

/-! ## Diff data model (src/types.ts) -/

/-- One hunk of a unified diff (interface `DiffHunk`). -/
structure DiffHunk where
  header : Str
  oldStart : Nat
  oldLines : Nat
  newStart : Nat
  newLines : Nat
  content : Str
deriving DecidableEq

/-- The kind of a changed line (the `type` field of `ChangedLine`). -/
inductive LineKind where
  | add
  | delete
  | context
deriving DecidableEq

/-- A changed line with its resolved line number (interface `ChangedLine`). -/
structure ChangedLine where
  type : LineKind
  lineNumber : Nat
  content : Str
deriving DecidableEq

/-- File status vocabulary of a changed file. -/
inductive FileStatus where
  | added
  | modified
  | removed
  | renamed
deriving DecidableEq

/-- A parsed changed file (interface `ChangedFile`). -/
structure ChangedFile where
  path : Str
  status : FileStatus
  hunks : List DiffHunk
  addedLines : List ChangedLine
  removedLines : List ChangedLine
  patch : Str
deriving DecidableEq

/-! ## DiffParser: extractChangedLines (src/diff-parser.ts) -/

/-- The inner loop of `extractChangedLines` over one hunk's content lines,
carrying the two counters.  A line starting with `+` emits an added record
at the new counter and advances it; a line starting with `-` emits a
removed record at the old counter and advances it; any other line advances
both counters. -/
def walkHunkLines (newLineNum oldLineNum : Nat) : List Str → List ChangedLine × List ChangedLine
  | [] => ([], [])
  | line :: rest =>
    if strStartsWith line plusStr then
      (⟨LineKind.add, newLineNum, line.drop 1⟩ :: (walkHunkLines (newLineNum + 1) oldLineNum rest).1,
       (walkHunkLines (newLineNum + 1) oldLineNum rest).2)
    else if strStartsWith line minusStr then
      ((walkHunkLines newLineNum (oldLineNum + 1) rest).1,
       ⟨LineKind.delete, oldLineNum, line.drop 1⟩ :: (walkHunkLines newLineNum (oldLineNum + 1) rest).2)
    else
      walkHunkLines (newLineNum + 1) (oldLineNum + 1) rest

/-- Result record of `extractChangedLines`. -/
structure ExtractResult where
  addedLines : List ChangedLine
  removedLines : List ChangedLine
deriving DecidableEq

/-- Embedding of `extractChangedLines(hunks)`: for each hunk the content is
split on newlines and walked with counters initialized to `newStart` and
`oldStart`; the records of all hunks are accumulated in order. -/
def extractChangedLines (hunks : List DiffHunk) : ExtractResult :=
  { addedLines :=
      hunks.flatMap fun h => (walkHunkLines h.newStart h.oldStart (jsSplitLines h.content)).1
    removedLines :=
      hunks.flatMap fun h => (walkHunkLines h.newStart h.oldStart (jsSplitLines h.content)).2 }

/-! ## PositionMapper: lineToDiffPosition (src/reviewer.ts) -/

/-- The inner loop of `lineToDiffPosition` over one hunk's content lines.
Every content line consumes one position (`pos` is incremented first);
a deleted line is skipped without advancing the new-file counter `cur`;
otherwise a match of `cur` against the target returns the position just
consumed.  Returns the found position (if any) together with the position
counter after the hunk. -/
def scanContent (target : Nat) : List Str → Nat → Nat → Option Nat × Nat
  | [], pos, _ => (none, pos)
  | line :: rest, pos, cur =>
    if strStartsWith line minusStr then
      scanContent target rest (pos + 1) cur
    else if cur = target then
      (some (pos + 1), pos + 1)
    else
      scanContent target rest (pos + 1) (cur + 1)

/-- The outer loop of `lineToDiffPosition` over a file's hunks: each hunk
header consumes one position, then the hunk content is scanned with the
new-file counter starting at the hunk's `newStart`. -/
def scanHunks (target : Nat) : List DiffHunk → Nat → Option Nat
  | [], _ => none
  | h :: hs, pos =>
    match scanContent target (jsSplitLines h.content) (pos + 1) h.newStart with
    | (some p, _) => some p
    | (none, p2) => scanHunks target hs p2

/-- Embedding of `lineToDiffPosition(changedFiles, filePath, lineNumber)`. -/
def lineToDiffPosition (changedFiles : List ChangedFile) (filePath : Str) (lineNumber : Nat) :
    Option Nat :=
  match changedFiles.find? (fun f => f.path == filePath) with
  | none => none
  | some file => scanHunks lineNumber file.hunks 0

/-! ## Lemmas about the dual-counter walk -/

/-- A line is an add or context line exactly when it does not start with
the minus sign (adds start with plus; context lines start with neither). -/
def isAddOrContext (l : Str) : Bool := strStartsWith l plusStr || !strStartsWith l minusStr

/-- The added records of a hunk walk are exactly as many as the
plus-prefixed content lines. -/
theorem walkHunkLines_fst_length (ls : List Str) :
    ∀ n o : Nat, (walkHunkLines n o ls).1.length = ls.countP (fun l => strStartsWith l plusStr) := by
  induction ls with
  | nil => intro n o; simp [walkHunkLines]
  | cons line rest ih =>
    intro n o
    by_cases hp : strStartsWith line plusStr
    · simp [walkHunkLines, hp, List.countP_cons, ih]
    · by_cases hm : strStartsWith line minusStr
      · simp [walkHunkLines, hp, hm, List.countP_cons, ih]
      · simp [walkHunkLines, hp, hm, List.countP_cons, ih]

/-- The removed records of a hunk walk are exactly as many as the content
lines that start with minus but not with plus. -/
theorem walkHunkLines_snd_length (ls : List Str) :
    ∀ n o : Nat, (walkHunkLines n o ls).2.length
      = ls.countP (fun l => !strStartsWith l plusStr && strStartsWith l minusStr) := by
  induction ls with
  | nil => intro n o; simp [walkHunkLines]
  | cons line rest ih =>
    intro n o
    by_cases hp : strStartsWith line plusStr
    · simp [walkHunkLines, hp, List.countP_cons, ih]
    · by_cases hm : strStartsWith line minusStr
      · simp [walkHunkLines, hp, hm, List.countP_cons, ih]
      · simp [walkHunkLines, hp, hm, List.countP_cons, ih]

/-- Index correspondence for added records: the record produced for the
plus line at index `i` sits at position (number of earlier plus lines) in
the added list, and its line number is the initial new counter plus the
number of earlier add/context lines. -/
theorem walkHunkLines_fst_get? (ls : List Str) :
    ∀ n o i : Nat, ∀ hi : i < ls.length,
      strStartsWith (ls.get ⟨i, hi⟩) plusStr = true →
      (walkHunkLines n o ls).1[(ls.take i).countP (fun l => strStartsWith l plusStr)]?
        = some ⟨LineKind.add, n + (ls.take i).countP isAddOrContext, (ls.get ⟨i, hi⟩).drop 1⟩ := by
  induction ls with
  | nil => intro n o i hi; simp at hi
  | cons line rest ih =>
    intro n o i hi hplus
    cases i with
    | zero =>
      simp only [List.get] at hplus
      simp [walkHunkLines, hplus]
    | succ j =>
      simp only [List.get] at hplus
      have hj : j < rest.length := by simpa using hi
      by_cases hp : strStartsWith line plusStr
      · have ihh := ih (n + 1) o j hj hplus
        have harith : n + 1 + (rest.take j).countP isAddOrContext
            = n + ((rest.take j).countP isAddOrContext + 1) := by omega
        rw [harith] at ihh
        simp [walkHunkLines, hp, List.countP_cons, isAddOrContext, ihh]
      · by_cases hm : strStartsWith line minusStr
        · have ihh := ih n (o + 1) j hj hplus
          simp [walkHunkLines, hp, hm, List.countP_cons, isAddOrContext, ihh]
        · have ihh := ih (n + 1) (o + 1) j hj hplus
          have harith : n + 1 + (rest.take j).countP isAddOrContext
              = n + ((rest.take j).countP isAddOrContext + 1) := by omega
          rw [harith] at ihh
          simp [walkHunkLines, hp, hm, List.countP_cons, isAddOrContext, ihh]

/-- Index correspondence for removed records: the record produced for the
minus line at index `i` sits at position (number of earlier removed lines)
in the removed list, and its line number is the initial old counter plus
the number of earlier delete/context lines (the lines not starting with
plus). -/
theorem walkHunkLines_snd_get? (ls : List Str) :
    ∀ n o i : Nat, ∀ hi : i < ls.length,
      strStartsWith (ls.get ⟨i, hi⟩) plusStr = false →
      strStartsWith (ls.get ⟨i, hi⟩) minusStr = true →
      (walkHunkLines n o ls).2[(ls.take i).countP
          (fun l => !strStartsWith l plusStr && strStartsWith l minusStr)]?
        = some ⟨LineKind.delete, o + (ls.take i).countP (fun l => !strStartsWith l plusStr),
            (ls.get ⟨i, hi⟩).drop 1⟩ := by
  induction ls with
  | nil => intro n o i hi; simp at hi
  | cons line rest ih =>
    intro n o i hi hnplus hminus
    cases i with
    | zero =>
      simp only [List.get] at hnplus hminus
      simp [walkHunkLines, hnplus, hminus]
    | succ j =>
      simp only [List.get] at hnplus hminus
      have hj : j < rest.length := by simpa using hi
      by_cases hp : strStartsWith line plusStr
      · have ihh := ih (n + 1) o j hj hnplus hminus
        simp [walkHunkLines, hp, List.countP_cons, ihh]
      · by_cases hm : strStartsWith line minusStr
        · have ihh := ih n (o + 1) j hj hnplus hminus
          have harith : o + 1 + (rest.take j).countP (fun l => !strStartsWith l plusStr)
              = o + ((rest.take j).countP (fun l => !strStartsWith l plusStr) + 1) := by omega
          rw [harith] at ihh
          simp [walkHunkLines, hp, hm, List.countP_cons, ihh]
        · have ihh := ih (n + 1) (o + 1) j hj hnplus hminus
          have harith : o + 1 + (rest.take j).countP (fun l => !strStartsWith l plusStr)
              = o + ((rest.take j).countP (fun l => !strStartsWith l plusStr) + 1) := by omega
          rw [harith] at ihh
          simp [walkHunkLines, hp, hm, List.countP_cons, ihh]

/-- Claim C1: `extractChangedLines` walks each hunk with two counters
initialized to `newStart` and `oldStart`; plus lines yield added records at
the current new counter, minus lines yield removed records at the current
old counter, other lines advance both counters silently.  Consequently the
number of plus-prefixed content lines equals `addedLines.length` (and the
minus-but-not-plus lines equal `removedLines.length`), and the record for
the plus line at index `i` of a hunk carries line number `newStart` plus
the count of add/context lines preceding it within the hunk (symmetrically
for removed records in old-file coordinates). -/
theorem extractChangedLines_correct (hunks : List DiffHunk) :
    ((extractChangedLines hunks).addedLines.length
      = (hunks.map fun h => (jsSplitLines h.content).countP
          (fun l => strStartsWith l plusStr)).sum)
    ∧ ((extractChangedLines hunks).removedLines.length
      = (hunks.map fun h => (jsSplitLines h.content).countP
          (fun l => !strStartsWith l plusStr && strStartsWith l minusStr)).sum)
    ∧ (∀ h ∈ hunks, ∀ i : Nat, ∀ hi : i < (jsSplitLines h.content).length,
        (strStartsWith ((jsSplitLines h.content).get ⟨i, hi⟩) plusStr = true →
          (walkHunkLines h.newStart h.oldStart (jsSplitLines h.content)).1[
              ((jsSplitLines h.content).take i).countP (fun l => strStartsWith l plusStr)]?
            = some ⟨LineKind.add,
                h.newStart + ((jsSplitLines h.content).take i).countP isAddOrContext,
                ((jsSplitLines h.content).get ⟨i, hi⟩).drop 1⟩)
        ∧ (strStartsWith ((jsSplitLines h.content).get ⟨i, hi⟩) plusStr = false →
            strStartsWith ((jsSplitLines h.content).get ⟨i, hi⟩) minusStr = true →
          (walkHunkLines h.newStart h.oldStart (jsSplitLines h.content)).2[
              ((jsSplitLines h.content).take i).countP
                (fun l => !strStartsWith l plusStr && strStartsWith l minusStr)]?
            = some ⟨LineKind.delete,
                h.oldStart + ((jsSplitLines h.content).take i).countP
                  (fun l => !strStartsWith l plusStr),
                ((jsSplitLines h.content).get ⟨i, hi⟩).drop 1⟩)) := by
  refine ⟨?_, ?_, ?_⟩
  · simp only [extractChangedLines, List.length_flatMap]
    exact congrArg List.sum (List.map_congr_left fun h _ => walkHunkLines_fst_length _ _ _)
  · simp only [extractChangedLines, List.length_flatMap]
    exact congrArg List.sum (List.map_congr_left fun h _ => walkHunkLines_snd_length _ _ _)
  · intro h _ i hi
    exact ⟨fun hp => walkHunkLines_fst_get? _ _ _ _ hi hp,
      fun hnp hm => walkHunkLines_snd_get? _ _ _ _ hi hnp hm⟩

/-- Witness for C1 on the scenario patch body of one hunk
with header values 1,2,1,3 and content lines: a context line,
a plus line, a context line. -/
theorem extractChangedLines_correct_witness :
    (let h : DiffHunk := ⟨[], 1, 2, 1, 3, (" context\n+added\n context").data⟩
     ((extractChangedLines [h]).addedLines.length
        = ([h].map fun hh => (jsSplitLines hh.content).countP
            (fun l => strStartsWith l plusStr)).sum)
     ∧ (extractChangedLines [h]).addedLines = [⟨LineKind.add, 2, ("added").data⟩]) := by
  refine ⟨(extractChangedLines_correct _).1, ?_⟩
  decide

/-! ## Lemmas about the position scan -/

/-- When the scan of a hunk's content finds no match, the final position
counter has consumed exactly one position per content line. -/
theorem scanContent_none_pos (t : Nat) (ls : List Str) :
    ∀ pos cur p2 : Nat, scanContent t ls pos cur = (none, p2) → p2 = pos + ls.length := by
  induction ls with
  | nil =>
    intro pos cur p2 h
    simp only [scanContent, Prod.mk.injEq, true_and] at h
    simp only [List.length_nil]
    omega
  | cons line rest ih =>
    intro pos cur p2 h
    simp only [scanContent] at h
    by_cases hm : strStartsWith line minusStr
    · rw [if_pos hm] at h
      have := ih (pos + 1) cur p2 h
      simp only [List.length_cons]
      omega
    · rw [if_neg hm] at h
      by_cases hc : cur = t
      · rw [if_pos hc] at h
        simp at h
      · rw [if_neg hc] at h
        have := ih (pos + 1) (cur + 1) p2 h
        simp only [List.length_cons]
        omega

/-- A found position lies strictly after the entry position and within the
content lines of the hunk. -/
theorem scanContent_some_bounds (t : Nat) (ls : List Str) :
    ∀ pos cur p x : Nat, scanContent t ls pos cur = (some p, x) →
      pos < p ∧ p ≤ pos + ls.length := by
  induction ls with
  | nil => intro pos cur p x h; simp [scanContent] at h
  | cons line rest ih =>
    intro pos cur p x h
    simp only [scanContent] at h
    by_cases hm : strStartsWith line minusStr
    · rw [if_pos hm] at h
      have := ih (pos + 1) cur p x h
      simp only [List.length_cons]
      omega
    · rw [if_neg hm] at h
      by_cases hc : cur = t
      · rw [if_pos hc] at h
        injection h with ha hb
        injection ha with ha
        simp only [List.length_cons]
        omega
      · rw [if_neg hc] at h
        have := ih (pos + 1) (cur + 1) p x h
        simp only [List.length_cons]
        omega

/-- Two scans of the same content lines from the same entry position and
new-file counter that report the same position were looking for the same
target line number. -/
theorem scanContent_some_inj (ls : List Str) :
    ∀ pos cur p x1 x2 t1 t2 : Nat,
      scanContent t1 ls pos cur = (some p, x1) →
      scanContent t2 ls pos cur = (some p, x2) → t1 = t2 := by
  induction ls with
  | nil => intro pos cur p x1 x2 t1 t2 h1 h2; simp [scanContent] at h1
  | cons line rest ih =>
    intro pos cur p x1 x2 t1 t2 h1 h2
    simp only [scanContent] at h1 h2
    by_cases hm : strStartsWith line minusStr
    · rw [if_pos hm] at h1 h2
      exact ih (pos + 1) cur p x1 x2 t1 t2 h1 h2
    · rw [if_neg hm] at h1 h2
      by_cases hc1 : cur = t1
      · by_cases hc2 : cur = t2
        · omega
        · rw [if_pos hc1] at h1
          rw [if_neg hc2] at h2
          injection h1 with ha hb
          injection ha with ha
          have := scanContent_some_bounds t2 rest (pos + 1) (cur + 1) p x2 h2
          omega
      · by_cases hc2 : cur = t2
        · rw [if_neg hc1] at h1
          rw [if_pos hc2] at h2
          injection h2 with ha hb
          injection ha with ha
          have := scanContent_some_bounds t1 rest (pos + 1) (cur + 1) p x1 h1
          omega
        · rw [if_neg hc1] at h1
          rw [if_neg hc2] at h2
          exact ih (pos + 1) (cur + 1) p x1 x2 t1 t2 h1 h2

/-- A position found by the hunk scan lies at least two past the entry
position: one for the hunk header and one for a content line. -/
theorem scanHunks_some_lower (t : Nat) (hs : List DiffHunk) :
    ∀ pos p : Nat, scanHunks t hs pos = some p → pos + 2 ≤ p := by
  induction hs with
  | nil => intro pos p h; simp [scanHunks] at h
  | cons hd rest ih =>
    intro pos p h
    simp only [scanHunks] at h
    cases hscan : scanContent t (jsSplitLines hd.content) (pos + 1) hd.newStart with
    | mk found p2 =>
      rw [hscan] at h
      cases found with
      | some q =>
        have hqp : some q = some p := h
        injection hqp with hqp
        have := scanContent_some_bounds t _ (pos + 1) hd.newStart q p2 hscan
        omega
      | none =>
        have hrec : scanHunks t rest p2 = some p := h
        have hp2 := scanContent_none_pos t _ (pos + 1) hd.newStart p2 hscan
        have := ih p2 p hrec
        omega

/-- Two hunk scans from the same entry position reporting the same
position were looking for the same target line number. -/
theorem scanHunks_some_inj (hs : List DiffHunk) :
    ∀ pos p t1 t2 : Nat,
      scanHunks t1 hs pos = some p → scanHunks t2 hs pos = some p → t1 = t2 := by
  induction hs with
  | nil => intro pos p t1 t2 h1 h2; simp [scanHunks] at h1
  | cons hd rest ih =>
    intro pos p t1 t2 h1 h2
    simp only [scanHunks] at h1 h2
    cases hscan1 : scanContent t1 (jsSplitLines hd.content) (pos + 1) hd.newStart with
    | mk found1 q1 =>
      cases hscan2 : scanContent t2 (jsSplitLines hd.content) (pos + 1) hd.newStart with
      | mk found2 q2 =>
        rw [hscan1] at h1
        rw [hscan2] at h2
        cases found1 with
        | some a1 =>
          have ha1 : some a1 = some p := h1
          injection ha1 with ha1
          cases found2 with
          | some a2 =>
            have ha2 : some a2 = some p := h2
            injection ha2 with ha2
            exact scanContent_some_inj _ (pos + 1) hd.newStart p q1 q2 t1 t2
              (by rw [hscan1, ha1]) (by rw [hscan2, ha2])
          | none =>
            have hrec2 : scanHunks t2 rest q2 = some p := h2
            have hb1 := scanContent_some_bounds t1 _ (pos + 1) hd.newStart a1 q1 hscan1
            have hq2 := scanContent_none_pos t2 _ (pos + 1) hd.newStart q2 hscan2
            have := scanHunks_some_lower t2 rest q2 p hrec2
            omega
        | none =>
          have hrec1 : scanHunks t1 rest q1 = some p := h1
          cases found2 with
          | some a2 =>
            have ha2 : some a2 = some p := h2
            injection ha2 with ha2
            have hb2 := scanContent_some_bounds t2 _ (pos + 1) hd.newStart a2 q2 hscan2
            have hq1 := scanContent_none_pos t1 _ (pos + 1) hd.newStart q1 hscan1
            have := scanHunks_some_lower t1 rest q1 p hrec1
            omega
          | none =>
            have hrec2 : scanHunks t2 rest q2 = some p := h2
            have hq1 := scanContent_none_pos t1 _ (pos + 1) hd.newStart q1 hscan1
            have hq2 := scanContent_none_pos t2 _ (pos + 1) hd.newStart q2 hscan2
            have hqq : q1 = q2 := by omega
            rw [hqq] at hrec1
            exact ih q2 p t1 t2 hrec1 hrec2

/-- Claim C2: `lineToDiffPosition` is injective within one file's hunks:
for a fixed changed-file list and file path, two different new-file line
numbers that both map to a defined position map to different positions. -/
theorem lineToDiffPosition_injective (changedFiles : List ChangedFile) (filePath : Str)
    (n1 n2 p1 p2 : Nat)
    (h1 : lineToDiffPosition changedFiles filePath n1 = some p1)
    (h2 : lineToDiffPosition changedFiles filePath n2 = some p2)
    (hne : n1 ≠ n2) : p1 ≠ p2 := by
  intro hp
  subst hp
  unfold lineToDiffPosition at h1 h2
  cases hfind : changedFiles.find? (fun f => f.path == filePath) with
  | none => rw [hfind] at h1; exact Option.noConfusion h1
  | some file =>
    rw [hfind] at h1 h2
    exact hne (scanHunks_some_inj file.hunks 0 p1 n1 n2 h1 h2)

/-- Witness for C2: in a one-hunk file whose content is a context line and
an added line, lines 1 and 2 map to the distinct positions 2 and 3. -/
theorem lineToDiffPosition_injective_witness :
    lineToDiffPosition
        [⟨("a.ts").data, FileStatus.modified, [⟨[], 1, 1, 1, 2, (" ctx\n+new").data⟩], [], [], []⟩]
        (("a.ts").data) 1 = some 2
    ∧ lineToDiffPosition
        [⟨("a.ts").data, FileStatus.modified, [⟨[], 1, 1, 1, 2, (" ctx\n+new").data⟩], [], [], []⟩]
        (("a.ts").data) 2 = some 3
    ∧ (1 : Nat) ≠ 2
    ∧ (2 : Nat) ≠ 3 :=
  ⟨by decide, by decide, by decide,
    lineToDiffPosition_injective
      [⟨("a.ts").data, FileStatus.modified, [⟨[], 1, 1, 1, 2, (" ctx\n+new").data⟩], [], [], []⟩]
      (("a.ts").data) 1 2 2 3 (by decide) (by decide) (by decide)⟩

/-- Claim C9: a defined result of `lineToDiffPosition` is always at least
2: position 1 is consumed by the first hunk's header line and a match can
only be declared on a content line after it. -/
theorem lineToDiffPosition_ge_two (changedFiles : List ChangedFile) (filePath : Str)
    (lineNumber p : Nat)
    (h : lineToDiffPosition changedFiles filePath lineNumber = some p) : 2 ≤ p := by
  unfold lineToDiffPosition at h
  cases hfind : changedFiles.find? (fun f => f.path == filePath) with
  | none => rw [hfind] at h; exact Option.noConfusion h
  | some file =>
    rw [hfind] at h
    have := scanHunks_some_lower lineNumber file.hunks 0 p h
    omega

/-- Witness for C9: line 1 of the one-hunk file maps to position 2,
which the theorem bounds from below by 2. -/
theorem lineToDiffPosition_ge_two_witness :
    (let file : ChangedFile :=
      ⟨("a.ts").data, FileStatus.modified, [⟨[], 1, 1, 1, 2, (" ctx\n+new").data⟩],
        [], [], []⟩
     lineToDiffPosition [file] ("a.ts").data 1 = some 2 ∧ (2 : Nat) ≤ 2) := by
  refine ⟨by decide, ?_⟩
  exact lineToDiffPosition_ge_two
    [⟨("a.ts").data, FileStatus.modified, [⟨[], 1, 1, 1, 2, (" ctx\n+new").data⟩], [], [], []⟩]
    (("a.ts").data) 1 2 (by decide)

/-! ## Rules and policy data model (src/types.ts) -/

/-- Finding severity. -/
inductive Severity where
  | critical
  | warning
  | info
deriving DecidableEq

/-- The `SEVERITY_RANK` table of the synthesizer. -/
def severityRank : Severity → Nat
  | Severity.critical => 3
  | Severity.warning => 2
  | Severity.info => 1

/-- Provenance of a rule. -/
inductive RuleSource where
  | seed
  | learned
  | policy
deriving DecidableEq

/-- The six specialist names. -/
inductive SpecialistName where
  | security
  | loggingError
  | architectureBoundary
  | apiContract
  | dataAccess
  | reliability
deriving DecidableEq

/-- A hard rule's category: a specialist name or the wildcard `"any"`. -/
inductive RuleCategory where
  | any
  | specialist (s : SpecialistName)
deriving DecidableEq

/-- Hard-rule evaluation mode. -/
inductive HardRuleMode where
  | forbidRegex
  | requireRegex
deriving DecidableEq

/-- Hard-rule evaluation target. -/
inductive RuleTarget where
  | addedLines
  | fileContent
deriving DecidableEq

/-- A soft rule (interface `Rule`). -/
structure Rule where
  id : Str
  description : Str
  scope : Str
  pattern : Str
  severity : Severity
  source : RuleSource
deriving DecidableEq

/-- A locally evaluated hard rule (interface `HardRule`). -/
structure HardRule where
  id : Str
  description : Str
  scope : Str
  severity : Severity
  source : RuleSource
  category : RuleCategory
  mode : HardRuleMode
  pattern : Str
  target : RuleTarget
  message : Option Str
  newCodeOnly : Bool
deriving DecidableEq

/-- An allowlist entry (interface `AllowlistEntry`); `ruleIds` is optional. -/
structure AllowlistEntry where
  path : Str
  ruleIds : Option (List Str)
  reason : Option Str
deriving DecidableEq

/-- Enforcement mode. -/
inductive EnforcementMode where
  | warn
  | enforce
deriving DecidableEq

/-- Enforcement settings (interface `EnforcementSettings`). -/
structure EnforcementSettings where
  mode : EnforcementMode
  blockOn : List Severity
  newCodeOnly : Bool
  maxComments : Nat
deriving DecidableEq

/-- The shared settings record of config and bundle. -/
structure BundleSettings where
  maxInlineComments : Nat
  model : Str
  contextBudget : Nat
deriving DecidableEq

/-- Per-specialist runtime settings. -/
structure AgentRuntimeSettings where
  enabled : Bool
  maxFindings : Nat
deriving DecidableEq

/-- Per-specialist settings record, modelled as a total function over the
six specialist names. -/
structure AgentSettings where
  specialists : SpecialistName → AgentRuntimeSettings

/-- The configuration document (interface `ReviewPilotConfig`). -/
structure ReviewPilotConfig where
  rules : List Rule
  softRules : List Rule
  hardRules : List HardRule
  ignore : List Str
  allowlist : List AllowlistEntry
  settings : BundleSettings
  enforcement : EnforcementSettings
  agents : AgentSettings

/-- A persisted policy snapshot (interface `PolicySnapshot`). -/
structure PolicySnapshot where
  version : Nat
  generatedAt : Str
  softRules : List Rule
  hardRules : List HardRule

/-- The merged, run-ready policy (interface `PolicyBundle`). -/
structure PolicyBundle where
  softRules : List Rule
  hardRules : List HardRule
  allowlist : List AllowlistEntry
  ignore : List Str
  settings : BundleSettings
  enforcement : EnforcementSettings
  agents : AgentSettings

/-! ## Policy merge (src/policy/merge-policy.ts)

JavaScript `Map` semantics: `map.set` on an existing key replaces the
value in place (keeping the key's original insertion position), otherwise
appends; `[...map.values()]` lists values in insertion order. -/

/-- One `map.set(key x, x)` step on an insertion-ordered association list
keyed by `key`. -/
def mapUpsert {α : Type} (key : α → Str) (m : List α) (v : α) : List α :=
  if m.any (fun x => key x == key v) then
    m.map (fun x => if key x == key v then v else x)
  else
    m ++ [v]

/-- The common shape of `mergeRulesById` / `mergeHardRulesById`: insert all
rules of all layers into one id-keyed map, later writes overwriting
earlier ones, and list the values in insertion order. -/
def mergeById {α : Type} (key : α → Str) (ruleSets : List (List α)) : List α :=
  ruleSets.flatten.foldl (mapUpsert key) []

/-- Embedding of `mergeRulesById(...ruleSets)`. -/
def mergeRulesById (ruleSets : List (List Rule)) : List Rule :=
  mergeById (fun r => r.id) ruleSets

/-- Embedding of `mergeHardRulesById(...ruleSets)`. -/
def mergeHardRulesById (ruleSets : List (List HardRule)) : List HardRule :=
  mergeById (fun r => r.id) ruleSets

/-- One insertion into a JavaScript `Set` of strings: a new element is
appended, an existing one leaves the set unchanged. -/
def setAdd (acc : List Str) (s : Str) : List Str :=
  if s ∈ acc then acc else acc ++ [s]

/-- Embedding of `uniqueStrings(items)` (`[...new Set(items)]`): keeps the
first occurrence of each string, in order. -/
def uniqueStrings (items : List Str) : List Str :=
  items.foldl setAdd []

/-- Embedding of `mergeEnforcement(base, overrideMode)`. -/
def mergeEnforcement (base : EnforcementSettings) (overrideMode : Option EnforcementMode) :
    EnforcementSettings :=
  match overrideMode with
  | none => base
  | some m => { base with mode := m }

/-- The soft rules of an optional snapshot: `snapshot?.softRules ?? []`. -/
def snapshotSoftRules (snapshot : Option PolicySnapshot) : List Rule :=
  match snapshot with
  | some s => s.softRules
  | none => []

/-- The hard rules of an optional snapshot: `snapshot?.hardRules ?? []`. -/
def snapshotHardRules (snapshot : Option PolicySnapshot) : List HardRule :=
  match snapshot with
  | some s => s.hardRules
  | none => []

/-- Embedding of `mergePolicy(config, learnedRules, snapshot, overrideMode)`. -/
def mergePolicy (config : ReviewPilotConfig) (learnedRules : List Rule)
    (snapshot : Option PolicySnapshot) (overrideMode : Option EnforcementMode) : PolicyBundle :=
  { softRules := mergeRulesById
      [snapshotSoftRules snapshot, learnedRules, config.softRules]
    hardRules := mergeHardRulesById
      [snapshotHardRules snapshot, config.hardRules]
    allowlist := config.allowlist
    ignore := uniqueStrings config.ignore
    settings := config.settings
    enforcement := mergeEnforcement config.enforcement overrideMode
    agents := config.agents }

/-! ## Lemmas about the id-keyed merge -/

/-- Replacing the entries of key `key v` by `v` does not change a lookup
for a different key `j`. -/
theorem mapSubst_find?_ne {α : Type} (key : α → Str) (v : α) (j : Str) (hv : key v ≠ j) :
    ∀ m : List α, (m.map (fun x => if key x == key v then v else x)).find? (fun x => key x == j)
      = m.find? (fun x => key x == j) := by
  intro m
  induction m with
  | nil => simp
  | cons a rest ih =>
    by_cases ha : key a == key v
    · have haj : (key a == j) = false := by
        simp only [beq_eq_false_iff_ne, ne_eq]
        rw [(beq_iff_eq).mp ha]
        exact hv
      have hvj : (key v == j) = false := by
        simp only [beq_eq_false_iff_ne, ne_eq]
        exact hv
      simp only [List.map_cons, if_pos ha, List.find?_cons, hvj, haj]
      exact ih
    · simp only [List.map_cons, if_neg ha, List.find?_cons]
      by_cases haj : (key a == j) = true
      · simp only [haj]
      · simp only [Bool.not_eq_true] at haj
        simp only [haj]
        exact ih

/-- Replacing the entries of key `key v` by `v` makes a lookup for that key
return `v`, provided some entry with that key exists. -/
theorem mapSubst_find?_eq {α : Type} (key : α → Str) (v : α) :
    ∀ m : List α, m.any (fun x => key x == key v) = true →
      (m.map (fun x => if key x == key v then v else x)).find? (fun x => key x == key v)
        = some v := by
  intro m
  induction m with
  | nil => intro h; simp at h
  | cons a rest ih =>
    intro hmem
    by_cases ha : key a == key v
    · simp only [List.map_cons, if_pos ha, List.find?_cons, beq_self_eq_true]
    · have hmem2 : rest.any (fun x => key x == key v) = true := by
        simp only [List.any_cons, ha, Bool.false_or] at hmem
        exact hmem
      have ha2 : (key a == key v) = false := by
        simpa using ha
      simp only [List.map_cons, List.find?_cons, ha2, Bool.false_eq_true, if_false]
      exact ih hmem2

/-- One upsert step changes the id-indexed lookup exactly at the inserted
value's key. -/
theorem mapUpsert_find? {α : Type} (key : α → Str) (m : List α) (v : α) (j : Str) :
    (mapUpsert key m v).find? (fun x => key x == j)
      = if key v == j then some v else m.find? (fun x => key x == j) := by
  unfold mapUpsert
  by_cases hv : (key v == j) = true
  · rw [if_pos hv]
    have hj : j = key v := ((beq_iff_eq).mp hv).symm
    subst hj
    by_cases hmem : m.any (fun x => key x == key v)
    · rw [if_pos hmem]
      exact mapSubst_find?_eq key v m hmem
    · rw [if_neg hmem]
      have hnone : m.find? (fun x => key x == key v) = none := by
        rw [List.find?_eq_none]
        intro x hx
        by_contra hcontra
        exact hmem (List.any_eq_true.mpr ⟨x, hx, by simpa using hcontra⟩)
      rw [List.find?_append, hnone]
      simp [List.find?]
  · rw [if_neg hv]
    by_cases hmem : m.any (fun x => key x == key v)
    · rw [if_pos hmem]
      exact mapSubst_find?_ne key v j (by simpa [beq_iff_eq] using hv) m
    · rw [if_neg hmem]
      rw [List.find?_append]
      simp [List.find?, hv]

/-- The id-indexed lookup into an ordered merge returns the last write:
looking up in the merged map equals looking up in the reversed
concatenation of the layers. -/
theorem mergeById_find? {α : Type} (key : α → Str) (sets : List (List α)) (j : Str) :
    (mergeById key sets).find? (fun x => key x == j)
      = sets.flatten.reverse.find? (fun x => key x == j) := by
  have main : ∀ (l m : List α),
      (l.foldl (mapUpsert key) m).find? (fun x => key x == j)
        = (l.reverse.find? (fun x => key x == j)).or (m.find? (fun x => key x == j)) := by
    intro l
    induction l with
    | nil => intro m; simp
    | cons v rest ih =>
      intro m
      simp only [List.foldl_cons, List.reverse_cons]
      rw [ih (mapUpsert key m v), mapUpsert_find?, List.find?_append]
      by_cases hv : (key v == j) = true
      · rw [if_pos hv]
        simp [List.find?_cons, hv, Option.or_assoc]
      · rw [if_neg hv]
        simp [List.find?_cons, hv]
  unfold mergeById
  rw [main sets.flatten []]
  simp

/-- Folding `setAdd` preserves duplicate-freedom. -/
theorem setAdd_foldl_nodup : ∀ (l acc : List Str), acc.Nodup → (l.foldl setAdd acc).Nodup := by
  intro l
  induction l with
  | nil => intro acc h; simpa using h
  | cons s rest ih =>
    intro acc h
    simp only [List.foldl_cons]
    by_cases hs : s ∈ acc
    · rw [show setAdd acc s = acc from if_pos hs]
      exact ih acc h
    · rw [show setAdd acc s = acc ++ [s] from if_neg hs]
      refine ih _ (List.nodup_append.mpr ⟨h, List.nodup_singleton s, ?_⟩)
      intro a ha hb
      rw [List.mem_singleton] at hb
      subst hb
      exact hs ha

/-- Folding `setAdd` collects exactly the elements of the accumulator and
the traversed list. -/
theorem setAdd_foldl_mem : ∀ (l acc : List Str) (x : Str),
    x ∈ l.foldl setAdd acc ↔ x ∈ acc ∨ x ∈ l := by
  intro l
  induction l with
  | nil => intro acc x; simp
  | cons s rest ih =>
    intro acc x
    simp only [List.foldl_cons]
    by_cases hs : s ∈ acc
    · rw [show setAdd acc s = acc from if_pos hs, ih]
      constructor
      · rintro (h | h)
        · exact Or.inl h
        · exact Or.inr (List.mem_cons_of_mem s h)
      · rintro (h | h)
        · exact Or.inl h
        · rcases List.mem_cons.mp h with h | h
          · exact Or.inl (h ▸ hs)
          · exact Or.inr h
    · rw [show setAdd acc s = acc ++ [s] from if_neg hs, ih]
      simp only [List.mem_append, List.mem_singleton, List.mem_cons]
      tauto

/-- The de-duplicated ignore globs are duplicate-free. -/
theorem uniqueStrings_nodup (items : List Str) : (uniqueStrings items).Nodup :=
  setAdd_foldl_nodup items [] List.nodup_nil

/-- De-duplication preserves the set of elements. -/
theorem uniqueStrings_mem (items : List Str) (x : Str) :
    x ∈ uniqueStrings items ↔ x ∈ items := by
  rw [uniqueStrings, setAdd_foldl_mem]
  simp

/-- Claim C4: `mergePolicy` merges rule layers per rule id with precedence
config over learned over snapshot (the id-indexed lookup of the merged
bundle is the last write in layer order, so a lookup that succeeds in the
config layer wins), de-duplicates the ignore globs while preserving their
set, passes allowlist, settings, agents and the non-mode enforcement
fields through unchanged, and replaces `enforcement.mode` exactly when a
run-time override mode is supplied. -/
theorem mergePolicy_correct (config : ReviewPilotConfig) (learnedRules : List Rule)
    (snapshot : Option PolicySnapshot) (overrideMode : Option EnforcementMode) :
    (∀ j : Str,
      (mergePolicy config learnedRules snapshot overrideMode).softRules.find?
          (fun r => r.id == j)
        = (snapshotSoftRules snapshot
            ++ learnedRules ++ config.softRules).reverse.find? (fun r => r.id == j))
    ∧ (∀ j : Str,
      (mergePolicy config learnedRules snapshot overrideMode).hardRules.find?
          (fun r => r.id == j)
        = (snapshotHardRules snapshot
            ++ config.hardRules).reverse.find? (fun r => r.id == j))
    ∧ (∀ (j : Str) (r : Rule),
        config.softRules.reverse.find? (fun x => x.id == j) = some r →
        (mergePolicy config learnedRules snapshot overrideMode).softRules.find?
          (fun x => x.id == j) = some r)
    ∧ (∀ (j : Str) (r : HardRule),
        config.hardRules.reverse.find? (fun x => x.id == j) = some r →
        (mergePolicy config learnedRules snapshot overrideMode).hardRules.find?
          (fun x => x.id == j) = some r)
    ∧ (mergePolicy config learnedRules snapshot overrideMode).ignore.Nodup
    ∧ (∀ s : Str,
        s ∈ (mergePolicy config learnedRules snapshot overrideMode).ignore ↔ s ∈ config.ignore)
    ∧ (mergePolicy config learnedRules snapshot overrideMode).allowlist = config.allowlist
    ∧ (mergePolicy config learnedRules snapshot overrideMode).settings = config.settings
    ∧ (mergePolicy config learnedRules snapshot overrideMode).agents = config.agents
    ∧ (mergePolicy config learnedRules snapshot overrideMode).enforcement.blockOn
        = config.enforcement.blockOn
    ∧ (mergePolicy config learnedRules snapshot overrideMode).enforcement.newCodeOnly
        = config.enforcement.newCodeOnly
    ∧ (mergePolicy config learnedRules snapshot overrideMode).enforcement.maxComments
        = config.enforcement.maxComments
    ∧ (mergePolicy config learnedRules snapshot overrideMode).enforcement.mode
        = (match overrideMode with | some m => m | none => config.enforcement.mode) := by
  have hsoft : ∀ j : Str,
      (mergePolicy config learnedRules snapshot overrideMode).softRules.find?
          (fun r => r.id == j)
        = (snapshotSoftRules snapshot
            ++ learnedRules ++ config.softRules).reverse.find? (fun r => r.id == j) := by
    intro j
    show (mergeRulesById _).find? _ = _
    rw [mergeRulesById, mergeById_find?]
    simp [List.append_assoc]
  have hhard : ∀ j : Str,
      (mergePolicy config learnedRules snapshot overrideMode).hardRules.find?
          (fun r => r.id == j)
        = (snapshotHardRules snapshot
            ++ config.hardRules).reverse.find? (fun r => r.id == j) := by
    intro j
    show (mergeHardRulesById _).find? _ = _
    rw [mergeHardRulesById, mergeById_find?]
    simp [List.append_assoc]
  refine ⟨hsoft, hhard, ?_, ?_, ?_, ?_, rfl, rfl, rfl, ?_, ?_, ?_, ?_⟩
  · intro j r hr
    rw [hsoft j, List.reverse_append, List.find?_append, hr]
    rfl
  · intro j r hr
    rw [hhard j, List.reverse_append, List.find?_append, hr]
    rfl
  · exact uniqueStrings_nodup config.ignore
  · intro s
    exact uniqueStrings_mem config.ignore s
  · cases overrideMode <;> rfl
  · cases overrideMode <;> rfl
  · cases overrideMode <;> rfl
  · cases overrideMode <;> rfl

/-- Scenario rule `r1` as defined by the configuration layer. -/
def c4ConfigRule : Rule :=
  ⟨("r1").data, ("from config").data, ("**").data, ("check").data, Severity.critical,
    RuleSource.policy⟩

/-- Scenario rule `r1` as defined by the snapshot layer. -/
def c4SnapshotRule : Rule :=
  ⟨("r1").data, ("from snapshot").data, ("**").data, ("check").data, Severity.info,
    RuleSource.seed⟩

/-- Scenario configuration defining `r1`. -/
def c4Config : ReviewPilotConfig :=
  { rules := []
    softRules := [c4ConfigRule]
    hardRules := []
    ignore := [("a.txt").data, ("a.txt").data]
    allowlist := []
    settings := ⟨10, ("m").data, 1000⟩
    enforcement := ⟨EnforcementMode.enforce, [Severity.critical], false, 20⟩
    agents := ⟨fun _ => ⟨true, 5⟩⟩ }

/-- Scenario snapshot also defining `r1`. -/
def c4Snapshot : PolicySnapshot :=
  ⟨1, ("2024-01-01").data, [c4SnapshotRule], []⟩

/-- Witness for C4: when config and snapshot both define rule id `r1`, the
config's version is the one found in the merged bundle. -/
theorem mergePolicy_correct_witness :
    c4Config.softRules.reverse.find? (fun x => x.id == ("r1").data) = some c4ConfigRule
    ∧ (mergePolicy c4Config [] (some c4Snapshot) none).softRules.find?
        (fun x => x.id == ("r1").data) = some c4ConfigRule :=
  ⟨by decide,
    (mergePolicy_correct c4Config [] (some c4Snapshot) none).2.2.1 (("r1").data) c4ConfigRule
      (by decide)⟩

/-! ## Findings and the synthesizer (src/agents/review-synthesizer.ts) -/

/-- A finding (interface `Finding`); optional fields are `Option`s. -/
structure Finding where
  ruleId : Str
  severity : Severity
  file : Str
  line : Nat
  title : Str
  explanation : Str
  suggestion : Option Str
  category : Option SpecialistName
  agent : Option Str
  evidence : Option Str
deriving DecidableEq

/-- The composite dedupe key: the template string
ruleId, file, line and title joined by vertical bars. -/
def findingKey (f : Finding) : Str :=
  f.ruleId ++ ('|' :: f.file) ++ ('|' :: numChars f.line) ++ ('|' :: f.title)

/-- One iteration of the dedupe loop on the insertion-ordered key map:
a fresh key appends the finding; an existing key is overwritten only when
the new finding has strictly higher severity rank. -/
def dedupeStep (m : List Finding) (f : Finding) : List Finding :=
  match m.find? (fun x => findingKey x == findingKey f) with
  | none => m ++ [f]
  | some existing =>
    if severityRank existing.severity < severityRank f.severity then
      m.map (fun x => if findingKey x == findingKey f then f else x)
    else
      m

/-- Embedding of `dedupeFindings(findings)`. -/
def dedupeFindings (findings : List Finding) : List Finding :=
  findings.foldl dedupeStep []

/-- Keep the incumbent unless the challenger has strictly higher severity
rank (so ties keep the first-seen finding). -/
def pickHigher (acc f : Finding) : Finding :=
  if severityRank acc.severity < severityRank f.severity then f else acc

/-- The representative the dedupe loop keeps for one key class: the fold
that replaces the current representative only on strictly higher severity
rank, i.e. the first finding attaining the maximal rank of the class. -/
def keepHigherSeverity : List Finding → Option Finding
  | [] => none
  | h :: t => some (t.foldl pickHigher h)

/-- The value stored at one key, as a function of the previous occupant
and the newly traversed members of the key's class. -/
def classValue (old : Option Finding) (c : List Finding) : Option Finding :=
  match old with
  | some v => some (c.foldl pickHigher v)
  | none => keepHigherSeverity c

/-! ### Lemmas about dedupeFindings -/

/-- A dedupe step on a fresh key appends the finding. -/
theorem dedupeStep_of_fresh (m : List Finding) (f : Finding)
    (h : m.find? (fun x => findingKey x == findingKey f) = none) :
    dedupeStep m f = m ++ [f] := by
  unfold dedupeStep
  rw [h]

/-- A dedupe step on an occupied key replaces the occupant in place when
the new finding ranks strictly higher, and does nothing otherwise. -/
theorem dedupeStep_of_found (m : List Finding) (f v : Finding)
    (h : m.find? (fun x => findingKey x == findingKey f) = some v) :
    dedupeStep m f
      = if severityRank v.severity < severityRank f.severity then
          m.map (fun x => if findingKey x == findingKey f then f else x)
        else m := by
  unfold dedupeStep
  rw [h]

/-- The keys of the dedupe state evolve like a string set insertion. -/
theorem dedupeFoldl_keys : ∀ (l m : List Finding),
    (l.foldl dedupeStep m).map findingKey = (l.map findingKey).foldl setAdd (m.map findingKey) := by
  intro l
  induction l with
  | nil => intro m; simp
  | cons f rest ih =>
    intro m
    simp only [List.foldl_cons, List.map_cons]
    rw [ih]
    congr 1
    cases hfind : m.find? (fun x => findingKey x == findingKey f) with
    | none =>
      have hmem : findingKey f ∉ m.map findingKey := by
        intro hmem
        rcases List.mem_map.mp hmem with ⟨x, hx, hkx⟩
        have := List.find?_eq_none.mp hfind x hx
        simp [hkx] at this
      rw [dedupeStep_of_fresh m f hfind, setAdd, if_neg hmem]
      simp
    | some existing =>
      have hmem : findingKey f ∈ m.map findingKey := by
        have hx := List.find?_some hfind
        have hxm := List.mem_of_find?_eq_some hfind
        exact List.mem_map.mpr ⟨existing, hxm, (beq_iff_eq).mp hx⟩
      rw [dedupeStep_of_found m f existing hfind, setAdd, if_pos hmem]
      by_cases hrank : severityRank existing.severity < severityRank f.severity
      · rw [if_pos hrank]
        rw [List.map_map]
        apply List.map_congr_left
        intro x _
        by_cases hkey : findingKey x == findingKey f
        · simp [Function.comp, hkey, (beq_iff_eq).mp hkey]
        · simp [Function.comp, hkey]
      · rw [if_neg hrank]

/-- Replacing the occupants of key `findingKey v` by `v` makes the lookup
for that key return `v` when an occupant exists (specialization of the
generic association-map lemma to findings). -/
theorem dedupe_subst_find?_eq (v : Finding) (m : List Finding)
    (hmem : m.any (fun x => findingKey x == findingKey v) = true) :
    (m.map (fun x => if findingKey x == findingKey v then v else x)).find?
        (fun x => findingKey x == findingKey v) = some v :=
  mapSubst_find?_eq findingKey v m hmem

/-- A dedupe step for a finding of a different key does not change the
lookup at key `j`. -/
theorem dedupeStep_find?_ne (m : List Finding) (f : Finding) (j : Str)
    (hne : findingKey f ≠ j) :
    (dedupeStep m f).find? (fun x => findingKey x == j)
      = m.find? (fun x => findingKey x == j) := by
  cases hfind : m.find? (fun x => findingKey x == findingKey f) with
  | none =>
    rw [dedupeStep_of_fresh m f hfind, List.find?_append]
    have hf : (findingKey f == j) = false := by simpa using hne
    simp [List.find?_cons, hf]
  | some v =>
    rw [dedupeStep_of_found m f v hfind]
    by_cases hrank : severityRank v.severity < severityRank f.severity
    · rw [if_pos hrank]
      exact mapSubst_find?_ne findingKey f j hne m
    · rw [if_neg hrank]

/-- The value stored at a key after the dedupe fold: an occupied key holds
the severity-fold of its old occupant with the key's class in the
traversed list; a fresh key holds the severity-fold representative of its
class. -/
theorem dedupeFoldl_find? : ∀ (l m : List Finding) (j : Str),
    (l.foldl dedupeStep m).find? (fun x => findingKey x == j)
      = classValue (m.find? (fun x => findingKey x == j))
          (l.filter (fun f => findingKey f == j)) := by
  intro l
  induction l with
  | nil =>
    intro m j
    cases h : m.find? (fun x => findingKey x == j) <;>
      simp [classValue, keepHigherSeverity, h]
  | cons f rest ih =>
    intro m j
    simp only [List.foldl_cons]
    rw [ih]
    by_cases hkey : (findingKey f == j) = true
    · have hkeyeq : findingKey f = j := (beq_iff_eq).mp hkey
      simp only [List.filter_cons, hkey, if_true]
      cases hfind : m.find? (fun x => findingKey x == j) with
      | none =>
        have hfindf : m.find? (fun x => findingKey x == findingKey f) = none := by
          rw [hkeyeq]
          exact hfind
        rw [dedupeStep_of_fresh m f hfindf]
        have hfind2 : (m ++ [f]).find? (fun x => findingKey x == j) = some f := by
          rw [List.find?_append, hfind]
          simp [List.find?_cons, hkey]
        rw [hfind2]
        rfl
      | some v =>
        have hfindf : m.find? (fun x => findingKey x == findingKey f) = some v := by
          rw [hkeyeq]
          exact hfind
        have hany : m.any (fun x => findingKey x == findingKey f) = true := by
          refine List.any_eq_true.mpr ⟨v, List.mem_of_find?_eq_some hfind, ?_⟩
          have := List.find?_some hfind
          rw [hkeyeq]
          exact this
        have hstepfind :
            (dedupeStep m f).find? (fun x => findingKey x == j) = some (pickHigher v f) := by
          rw [dedupeStep_of_found m f v hfindf]
          by_cases hrank : severityRank v.severity < severityRank f.severity
          · rw [if_pos hrank, hkeyeq]
            have := mapSubst_find?_eq findingKey f m hany
            rw [hkeyeq] at this
            rw [this]
            simp [pickHigher, hrank]
          · rw [if_neg hrank, hfind]
            simp [pickHigher, hrank]
        rw [hstepfind]
        rfl
    · have hne : findingKey f ≠ j := by simpa using hkey
      have hkeyf : (findingKey f == j) = false := by simpa using hkey
      simp only [List.filter_cons, hkeyf, Bool.false_eq_true, if_false]
      rw [dedupeStep_find?_ne m f j hne]

/-- In a list with duplicate-free keys, the lookup for a member's key
returns that member. -/
theorem find?_key_of_mem_nodup : ∀ (m : List Finding),
    (m.map findingKey).Nodup → ∀ g ∈ m,
      m.find? (fun x => findingKey x == findingKey g) = some g := by
  intro m
  induction m with
  | nil => intro _ g hg; simp at hg
  | cons a rest ih =>
    intro hnodup g hg
    rcases List.mem_cons.mp hg with hga | hgr
    · subst hga
      simp [List.find?_cons]
    · have hnodup2 : (rest.map findingKey).Nodup := (List.nodup_cons.mp hnodup).2
      have hka : findingKey a ∉ rest.map findingKey := (List.nodup_cons.mp hnodup).1
      have hne : (findingKey a == findingKey g) = false := by
        refine beq_eq_false_iff_ne.mpr ?_
        intro hcontra
        exact hka (hcontra ▸ List.mem_map.mpr ⟨g, hgr, rfl⟩)
      simp only [List.find?_cons, hne]
      exact ih hnodup2 g hgr

/-- Folding the dedupe step over findings whose keys are all fresh and
mutually distinct appends them unchanged. -/
theorem dedupeFoldl_id : ∀ (l m : List Finding),
    ((m ++ l).map findingKey).Nodup → l.foldl dedupeStep m = m ++ l := by
  intro l
  induction l with
  | nil => intro m _; simp
  | cons f rest ih =>
    intro m hnodup
    have hkf : findingKey f ∉ m.map findingKey := by
      intro hmem
      rw [List.map_append] at hnodup
      rcases List.mem_map.mp hmem with ⟨x, hx, hkx⟩
      have hdisj := List.disjoint_of_nodup_append hnodup
      exact hdisj hmem (by simp)
    have hfind : m.find? (fun x => findingKey x == findingKey f) = none := by
      rw [List.find?_eq_none]
      intro x hx hbeq
      exact hkf (List.mem_map.mpr ⟨x, hx, (beq_iff_eq).mp hbeq⟩)
    simp only [List.foldl_cons]
    rw [dedupeStep_of_fresh m f hfind]
    have := ih (m ++ [f]) (by simpa using hnodup)
    rw [this]
    simp

/-- The keys of the deduped findings are duplicate-free. -/
theorem dedupeFindings_keys_nodup (l : List Finding) :
    ((dedupeFindings l).map findingKey).Nodup := by
  unfold dedupeFindings
  rw [dedupeFoldl_keys l []]
  exact setAdd_foldl_nodup (l.map findingKey) [] List.nodup_nil

/-- Findings whose composite tuples differ but whose joined string keys
coincide (the title of the first contains the separator). -/
def c5FindingA : Finding :=
  ⟨("r").data, Severity.warning, ("f").data, 1, ("x|2|t").data, ("e").data,
    none, none, none, none⟩

/-- Second finding of the C5 counterexample: a different file, line and
title, yet the same joined key as `c5FindingA`. -/
def c5FindingB : Finding :=
  ⟨("r").data, Severity.warning, ("f|1|x").data, 2, ("t").data, ("e").data,
    none, none, none, none⟩

/-- Counterexample to C5 as stated: `dedupeFindings` does not group by the
composite tuple (ruleId, file, line, title).  Two findings with different
tuples (different file, line and title) collapse into one because the
joined string keys `ruleId|file|line|title` coincide when a field contains
the separator. -/
theorem dedupeFindings_tuple_counterexample :
    (c5FindingA.file ≠ c5FindingB.file
      ∧ c5FindingA.line ≠ c5FindingB.line
      ∧ c5FindingA.title ≠ c5FindingB.title)
    ∧ findingKey c5FindingA = findingKey c5FindingB
    ∧ dedupeFindings [c5FindingA, c5FindingB] = [c5FindingA] := by
  refine ⟨⟨by decide, by decide, by decide⟩, by decide, by decide⟩

/-- Claim C5 (amended): `dedupeFindings` groups findings by the joined
string key ruleId, file, line, title separated by vertical bars (which
coincides with grouping by the tuple whenever no field contains the
separator): the keys of the result are the distinct keys of the input in
first-seen order, the representative kept for each key is the first
finding of the key class attaining its maximal severity rank
(critical=3 over warning=2 over info=1, ties keeping the first-seen), and
the function is idempotent. -/
theorem dedupeFindings_correct (l : List Finding) :
    ((dedupeFindings l).map findingKey = uniqueStrings (l.map findingKey))
    ∧ (∀ g ∈ dedupeFindings l,
        keepHigherSeverity (l.filter (fun f => findingKey f == findingKey g)) = some g)
    ∧ dedupeFindings (dedupeFindings l) = dedupeFindings l := by
  refine ⟨?_, ?_, ?_⟩
  · unfold dedupeFindings uniqueStrings
    exact dedupeFoldl_keys l []
  · intro g hg
    have h1 : (dedupeFindings l).find? (fun x => findingKey x == findingKey g) = some g :=
      find?_key_of_mem_nodup (dedupeFindings l) (dedupeFindings_keys_nodup l) g hg
    have h2 := dedupeFoldl_find? l [] (findingKey g)
    unfold dedupeFindings at h1
    rw [h1] at h2
    simp only [List.find?_nil, classValue] at h2
    exact h2.symm
  · have h := dedupeFoldl_id (dedupeFindings l) [] (by simpa using dedupeFindings_keys_nodup l)
    calc dedupeFindings (dedupeFindings l)
        = (dedupeFindings l).foldl dedupeStep [] := rfl
      _ = [] ++ dedupeFindings l := h
      _ = dedupeFindings l := by simp

/-- First finding of the C5 witness scenario: severity warning. -/
def c5WitnessWarning : Finding :=
  ⟨("r1").data, Severity.warning, ("a.ts").data, 3, ("t").data, ("e1").data,
    none, none, none, none⟩

/-- Second finding of the C5 witness scenario: same composite key,
severity critical. -/
def c5WitnessCritical : Finding :=
  ⟨("r1").data, Severity.critical, ("a.ts").data, 3, ("t").data, ("e2").data,
    none, none, none, none⟩

/-- Witness for C5 (amended): of two findings sharing the composite key
with severities warning and critical, only the critical one is kept, and
it is the severity-fold representative of its key class. -/
theorem dedupeFindings_correct_witness :
    dedupeFindings [c5WitnessWarning, c5WitnessCritical] = [c5WitnessCritical]
    ∧ c5WitnessCritical ∈ dedupeFindings [c5WitnessWarning, c5WitnessCritical]
    ∧ keepHigherSeverity
        ([c5WitnessWarning, c5WitnessCritical].filter
          (fun f => findingKey f == findingKey c5WitnessCritical))
      = some c5WitnessCritical :=
  ⟨by decide, by decide,
    (dedupeFindings_correct [c5WitnessWarning, c5WitnessCritical]).2.1
      c5WitnessCritical (by decide)⟩

/-! ## rankFindings (src/agents/review-synthesizer.ts)

`localeCompare` is modelled as code-point lexicographic comparison; the
JavaScript comparator returns a signed number, modelled as `Int`. -/

/-- Model of `a.localeCompare(b)`: negative, zero or positive according to
lexicographic order. -/
def localeCompare (a b : Str) : Int :=
  if a < b then -1 else if a = b then 0 else 1

/-- The comparator passed to `sort`: severity rank descending, then file
ascending, then line ascending. -/
def findingCompare (a b : Finding) : Int :=
  if (severityRank b.severity : Int) - (severityRank a.severity : Int) ≠ 0 then
    (severityRank b.severity : Int) - (severityRank a.severity : Int)
  else if localeCompare a.file b.file ≠ 0 then
    localeCompare a.file b.file
  else
    (a.line : Int) - (b.line : Int)

/-- The comparator as a boolean precedes-or-ties relation. -/
def findingLE (a b : Finding) : Bool := decide (findingCompare a b ≤ 0)

/-- Embedding of `rankFindings(findings)`: `[...findings].sort(cmp)` with
the stable ECMAScript sort, modelled by the stable merge sort. -/
def rankFindings (findings : List Finding) : List Finding :=
  findings.mergeSort findingLE

/-- The intended order: `a` precedes (or ties with) `b` when `a` has
strictly higher severity rank, or equal rank and lexicographically smaller
file, or equal rank and file and a line at most `b`'s. -/
def rankedBefore (a b : Finding) : Prop :=
  severityRank b.severity < severityRank a.severity
  ∨ (severityRank a.severity = severityRank b.severity
      ∧ (a.file < b.file ∨ (a.file = b.file ∧ a.line ≤ b.line)))

theorem localeCompare_neg_iff (a b : Str) : localeCompare a b < 0 ↔ a < b := by
  unfold localeCompare
  by_cases h1 : a < b
  · rw [if_pos h1]
    simp [h1]
  · rw [if_neg h1]
    by_cases h2 : a = b
    · rw [if_pos h2]
      simp [h1]
    · rw [if_neg h2]
      simp [h1]

theorem localeCompare_eq_zero_iff (a b : Str) : localeCompare a b = 0 ↔ a = b := by
  unfold localeCompare
  by_cases h1 : a < b
  · rw [if_pos h1]
    constructor
    · intro h
      exact absurd h (by decide)
    · intro h
      exact absurd (h ▸ h1) (lt_irrefl b)
  · rw [if_neg h1]
    by_cases h2 : a = b
    · rw [if_pos h2]
      simp [h2]
    · rw [if_neg h2]
      constructor
      · intro h
        exact absurd h (by decide)
      · intro h
        exact absurd h h2

/-- `findingLE` holds exactly when `a` precedes or ties with `b` in the
intended severity-file-line order. -/
theorem findingLE_iff (a b : Finding) : findingLE a b = true ↔ rankedBefore a b := by
  unfold findingLE findingCompare
  rw [decide_eq_true_eq]
  by_cases hs : ((severityRank b.severity : Int) - (severityRank a.severity : Int)) ≠ 0
  · rw [if_pos hs]
    unfold rankedBefore
    constructor
    · intro h
      left
      omega
    · rintro (h | ⟨h1, _⟩)
      · omega
      · omega
  · rw [if_neg hs]
    push_neg at hs
    by_cases hf : localeCompare a.file b.file ≠ 0
    · rw [if_pos hf]
      unfold rankedBefore
      constructor
      · intro h
        right
        have hlt : localeCompare a.file b.file < 0 := lt_of_le_of_ne h hf
        exact ⟨by omega, Or.inl ((localeCompare_neg_iff _ _).mp hlt)⟩
      · rintro (h | ⟨h1, hf2 | ⟨hfe, hl⟩⟩)
        · omega
        · have := (localeCompare_neg_iff a.file b.file).mpr hf2
          omega
        · exact absurd ((localeCompare_eq_zero_iff _ _).mpr hfe) hf
    · rw [if_neg hf]
      push_neg at hf
      have hfe : a.file = b.file := (localeCompare_eq_zero_iff _ _).mp hf
      unfold rankedBefore
      constructor
      · intro h
        right
        exact ⟨by omega, Or.inr ⟨hfe, by omega⟩⟩
      · rintro (h | ⟨h1, hf2 | ⟨_, hl⟩⟩)
        · omega
        · exact absurd (hfe ▸ hf2) (lt_irrefl _)
        · omega

/-- The comparator relation is total. -/
theorem findingLE_total (a b : Finding) : (findingLE a b || findingLE b a) = true := by
  rw [Bool.or_eq_true, findingLE_iff, findingLE_iff]
  unfold rankedBefore
  rcases lt_trichotomy (severityRank a.severity) (severityRank b.severity) with h | h | h
  · right
    left
    omega
  · rcases lt_trichotomy a.file b.file with hf | hf | hf
    · left
      right
      exact ⟨h, Or.inl hf⟩
    · by_cases hl : a.line ≤ b.line
      · left
        right
        exact ⟨h, Or.inr ⟨hf, hl⟩⟩
      · right
        right
        exact ⟨h.symm, Or.inr ⟨hf.symm, by omega⟩⟩
    · right
      right
      exact ⟨h.symm, Or.inl hf⟩
  · left
    left
    omega

/-- The comparator relation is transitive. -/
theorem findingLE_trans (a b c : Finding) :
    findingLE a b = true → findingLE b c = true → findingLE a c = true := by
  rw [findingLE_iff, findingLE_iff, findingLE_iff]
  unfold rankedBefore
  intro h1 h2
  rcases h1 with h1 | ⟨h1e, h1f⟩
  · rcases h2 with h2 | ⟨h2e, _⟩
    · left
      omega
    · left
      omega
  · rcases h2 with h2 | ⟨h2e, h2f⟩
    · left
      omega
    · right
      refine ⟨by omega, ?_⟩
      rcases h1f with h1f | ⟨h1fe, h1l⟩
      · rcases h2f with h2f | ⟨h2fe, _⟩
        · exact Or.inl (lt_trans h1f h2f)
        · exact Or.inl (by rw [← h2fe]; exact h1f)
      · rcases h2f with h2f | ⟨h2fe, h2l⟩
        · exact Or.inl (by rw [h1fe]; exact h2f)
        · exact Or.inr ⟨by rw [h1fe, h2fe], by omega⟩

/-- Claim C6: `rankFindings` returns a permutation of its input, sorted by
severity rank descending, then file path lexicographically ascending, then
line ascending, and stably: two findings equal on all three sort keys that
appear in order in the input appear in the same order in the output. -/
theorem rankFindings_correct (l : List Finding) :
    (rankFindings l).Perm l
    ∧ (rankFindings l).Pairwise rankedBefore
    ∧ (∀ a b : Finding, a.severity = b.severity → a.file = b.file → a.line = b.line →
        [a, b].Sublist l → [a, b].Sublist (rankFindings l)) := by
  refine ⟨List.mergeSort_perm l findingLE, ?_, ?_⟩
  · have h := @List.sorted_mergeSort Finding findingLE findingLE_trans findingLE_total l
    exact h.imp (fun hab => (findingLE_iff _ _).mp hab)
  · intro a b hsev hfile hline hsub
    apply List.pair_sublist_mergeSort findingLE_trans findingLE_total ?_ hsub
    rw [findingLE_iff]
    right
    exact ⟨by rw [hsev], Or.inr ⟨hfile, by omega⟩⟩

/-- First finding of the C6 witness: a tie on all three sort keys with
`c6SecondTied`, distinguished by its explanation. -/
def c6FirstTied : Finding :=
  ⟨("r1").data, Severity.warning, ("a.ts").data, 3, ("t").data, ("first").data,
    none, none, none, none⟩

/-- Second finding of the C6 witness. -/
def c6SecondTied : Finding :=
  ⟨("r2").data, Severity.warning, ("a.ts").data, 3, ("t").data, ("second").data,
    none, none, none, none⟩

/-- Witness for C6: two findings tied on severity, file and line keep
their input order in the sorted output. -/
theorem rankFindings_correct_witness :
    c6FirstTied.severity = c6SecondTied.severity
    ∧ c6FirstTied.file = c6SecondTied.file
    ∧ c6FirstTied.line = c6SecondTied.line
    ∧ [c6FirstTied, c6SecondTied].Sublist (rankFindings [c6FirstTied, c6SecondTied]) :=
  ⟨rfl, rfl, rfl,
    (rankFindings_correct [c6FirstTied, c6SecondTied]).2.2 c6FirstTied c6SecondTied rfl rfl rfl
      (List.Sublist.refl _)⟩

/-! ## Review output (src/reviewer.ts) -/

/-- Token accounting counters. -/
structure TokenUsage where
  inputTokens : Nat
  outputTokens : Nat
deriving DecidableEq

/-- The analysis result (interface `AnalysisResult`). -/
structure AnalysisResult where
  findings : List Finding
  summary : Str
  passCount : Nat
  tokenUsage : TokenUsage
deriving DecidableEq

/-- An inline review comment (interface `InlineComment`). -/
structure InlineComment where
  path : Str
  line : Nat
  body : Str
deriving DecidableEq

/-- The review event vocabulary. -/
inductive ReviewEvent where
  | comment
  | requestChanges
  | approve
deriving DecidableEq

/-- The review output (interface `ReviewOutput`). -/
structure ReviewOutput where
  body : Str
  comments : List InlineComment
  event : ReviewEvent
deriving DecidableEq

/-- The optional `opts` argument of event selection. -/
structure ReviewOptions where
  mode : Option EnforcementMode
  blockOn : Option (List Severity)

/-- The `SEVERITY_EMOJI` table. -/
def severityEmoji : Severity → Str
  | Severity.critical => ("🔴").data
  | Severity.warning => ("🟡").data
  | Severity.info => ("🔵").data

/-- The bot signature marker embedded in review bodies. -/
def botSignature : Str := ("<!-- review-pilot-review -->").data

/-- JavaScript truthiness of an optional string: `undefined` and the empty
string are falsy. -/
def jsTruthy : Option Str → Bool
  | none => false
  | some s => !s.isEmpty

/-- The wire name of a specialist. -/
def specialistStr : SpecialistName → Str
  | SpecialistName.security => ("security").data
  | SpecialistName.loggingError => ("logging-error").data
  | SpecialistName.architectureBoundary => ("architecture-boundary").data
  | SpecialistName.apiContract => ("api-contract").data
  | SpecialistName.dataAccess => ("data-access").data
  | SpecialistName.reliability => ("reliability").data

/-- Embedding of `formatInlineComment(finding)`. -/
def formatInlineComment (f : Finding) : Str :=
  severityEmoji f.severity ++ (" **").data ++ f.title ++ ("**\n\n").data ++ f.explanation
  ++ (if jsTruthy f.suggestion then ("\n\n**Suggestion:** ").data ++ f.suggestion.getD [] else [])
  ++ ("\n\n<sub>Rule: `").data ++ f.ruleId ++ ("`").data
  ++ (if jsTruthy f.agent then (" | Agent: `").data ++ f.agent.getD [] ++ ("`").data else [])
  ++ ("</sub>").data

/-- The per-finding block of the summary body's details section. -/
def findingDetailBlock (f : Finding) : Str :=
  ("#### ").data ++ severityEmoji f.severity ++ (" ").data ++ f.title ++ ("\n").data
  ++ ("📍 `").data ++ f.file ++ (":").data ++ numChars f.line
  ++ ("` | Rule: `").data ++ f.ruleId ++ ("`").data
  ++ (match f.category with
      | some c => (" | Category: `").data ++ specialistStr c ++ ("`").data
      | none => [])
  ++ (if jsTruthy f.agent then (" | Agent: `").data ++ f.agent.getD [] ++ ("`").data else [])
  ++ ("\n\n").data ++ f.explanation ++ ("\n").data
  ++ (if jsTruthy f.suggestion then
        ("\n> **Suggestion:** ").data ++ f.suggestion.getD [] ++ ("\n").data
      else [])
  ++ ("\n---\n\n").data

/-- Embedding of `formatSummaryBody(result)`. -/
def formatSummaryBody (result : AnalysisResult) : Str :=
  botSignature ++ ("\n## Review Pilot\n\n").data
  ++ result.summary ++ ("\n\n").data
  ++ (if result.findings.length = 0 then
        ("✅ **No semantic issues found.** The changes look consistent with the policy.\n").data
      else
        ("### Findings\n\n").data
        ++ ("| Severity | Count |\n|----------|-------|\n").data
        ++ (if (result.findings.filter (fun f => f.severity == Severity.critical)).length > 0 then
              ("| ").data ++ severityEmoji Severity.critical ++ (" Critical | ").data
              ++ numChars (result.findings.filter (fun f => f.severity == Severity.critical)).length
              ++ (" |\n").data
            else [])
        ++ (if (result.findings.filter (fun f => f.severity == Severity.warning)).length > 0 then
              ("| ").data ++ severityEmoji Severity.warning ++ (" Warning | ").data
              ++ numChars (result.findings.filter (fun f => f.severity == Severity.warning)).length
              ++ (" |\n").data
            else [])
        ++ (if (result.findings.filter (fun f => f.severity == Severity.info)).length > 0 then
              ("| ").data ++ severityEmoji Severity.info ++ (" Info | ").data
              ++ numChars (result.findings.filter (fun f => f.severity == Severity.info)).length
              ++ (" |\n").data
            else [])
        ++ ("\n### Details\n\n").data
        ++ (result.findings.map findingDetailBlock).flatten)
  ++ ("<sub>Passes: ").data ++ numChars result.passCount ++ (" | Tokens: ").data
  ++ numChars result.tokenUsage.inputTokens ++ (" in / ").data
  ++ numChars result.tokenUsage.outputTokens ++ (" out</sub>").data

/-- Embedding of `chooseReviewEvent(findings, opts)`: approve on zero
findings; in warn mode always comment; in enforce mode request changes
exactly when some finding's severity is in the blockOn set (default
criticals only). -/
def chooseReviewEvent (findings : List Finding) (opts : Option ReviewOptions) : ReviewEvent :=
  if findings.length = 0 then ReviewEvent.approve
  else if (opts.bind (fun o => o.mode)).getD EnforcementMode.enforce = EnforcementMode.warn then
    ReviewEvent.comment
  else if findings.any (fun f =>
      ((opts.bind (fun o => o.blockOn)).getD [Severity.critical]).contains f.severity) then
    ReviewEvent.requestChanges
  else
    ReviewEvent.comment

/-- Embedding of `buildReviewOutput(result, changedFiles, maxInlineComments, opts)`. -/
def buildReviewOutput (result : AnalysisResult) (changedFiles : List ChangedFile)
    (maxInlineComments : Nat) (opts : Option ReviewOptions) : ReviewOutput :=
  { body := formatSummaryBody result
    comments := (result.findings.take maxInlineComments).filterMap (fun f =>
      match lineToDiffPosition changedFiles f.file f.line with
      | none => none
      | some p => some ⟨f.file, p, formatInlineComment f⟩)
    event := chooseReviewEvent result.findings opts }

/-- Claim C7: the review event chosen by `buildReviewOutput` is APPROVE
exactly when the finding list is empty; with findings present and
effective mode warn it is always COMMENT; with findings present and
effective mode enforce it is REQUEST_CHANGES exactly when some finding's
severity is in the effective blockOn set, and COMMENT otherwise. -/
theorem buildReviewOutput_event_correct (result : AnalysisResult)
    (changedFiles : List ChangedFile) (maxInlineComments : Nat) (opts : Option ReviewOptions) :
    ((buildReviewOutput result changedFiles maxInlineComments opts).event = ReviewEvent.approve
      ↔ result.findings = [])
    ∧ (result.findings ≠ [] →
        (opts.bind (fun o => o.mode)).getD EnforcementMode.enforce = EnforcementMode.warn →
        (buildReviewOutput result changedFiles maxInlineComments opts).event
          = ReviewEvent.comment)
    ∧ (result.findings ≠ [] →
        (opts.bind (fun o => o.mode)).getD EnforcementMode.enforce = EnforcementMode.enforce →
        ((result.findings.any (fun f =>
            ((opts.bind (fun o => o.blockOn)).getD [Severity.critical]).contains f.severity)
              = true →
          (buildReviewOutput result changedFiles maxInlineComments opts).event
            = ReviewEvent.requestChanges)
        ∧ (result.findings.any (fun f =>
            ((opts.bind (fun o => o.blockOn)).getD [Severity.critical]).contains f.severity)
              = false →
          (buildReviewOutput result changedFiles maxInlineComments opts).event
            = ReviewEvent.comment))) := by
  have hev : (buildReviewOutput result changedFiles maxInlineComments opts).event
      = chooseReviewEvent result.findings opts := rfl
  rw [hev]
  unfold chooseReviewEvent
  by_cases hlen : result.findings.length = 0
  · rw [if_pos hlen]
    have hnil : result.findings = [] := List.length_eq_zero.mp hlen
    refine ⟨by simp [hnil], fun hne _ => absurd hnil hne, fun hne _ => absurd hnil hne⟩
  · rw [if_neg hlen]
    have hne : result.findings ≠ [] := fun h => hlen (by simp [h])
    by_cases hmode : (opts.bind (fun o => o.mode)).getD EnforcementMode.enforce
        = EnforcementMode.warn
    · rw [if_pos hmode]
      refine ⟨by simp [hne], fun _ _ => rfl, fun _ hmode2 => ?_⟩
      rw [hmode] at hmode2
      exact absurd hmode2 (by simp)
    · rw [if_neg hmode]
      by_cases hany : result.findings.any (fun f =>
          ((opts.bind (fun o => o.blockOn)).getD [Severity.critical]).contains f.severity) = true
      · rw [if_pos hany]
        refine ⟨by simp [hne], fun _ hmode2 => absurd hmode2 hmode, fun _ _ => ?_⟩
        exact ⟨fun _ => rfl, fun hfalse => absurd (hany ▸ hfalse) (by simp)⟩
      · rw [if_neg hany]
        refine ⟨by simp [hne], fun _ hmode2 => absurd hmode2 hmode, fun _ _ => ?_⟩
        exact ⟨fun htrue => absurd htrue hany, fun _ => rfl⟩

/-- The finding of the C7 witness scenario. -/
def c7Finding : Finding :=
  ⟨("r1").data, Severity.critical, ("a.ts").data, 3, ("t").data, ("e").data,
    none, none, none, none⟩

/-- The analysis result of the C7 witness scenario. -/
def c7Result : AnalysisResult :=
  ⟨[c7Finding], ("summary").data, 1, ⟨0, 0⟩⟩

/-- Witness for C7: one critical finding under default options (enforce
mode, blockOn criticals) yields REQUEST_CHANGES. -/
theorem buildReviewOutput_event_correct_witness :
    c7Result.findings ≠ []
    ∧ ((none : Option ReviewOptions).bind (fun o => o.mode)).getD EnforcementMode.enforce
        = EnforcementMode.enforce
    ∧ c7Result.findings.any (fun f =>
        (((none : Option ReviewOptions).bind (fun o => o.blockOn)).getD
          [Severity.critical]).contains f.severity) = true
    ∧ (buildReviewOutput c7Result [] 10 none).event = ReviewEvent.requestChanges :=
  ⟨by decide, rfl, by decide,
    ((buildReviewOutput_event_correct c7Result [] 10 none).2.2 (by decide) rfl).1 (by decide)⟩

/-! ## Specialist engine (src/agents/specialists/common.ts)

`minimatch(path, pattern)` is the parameter `globMatch`; `new RegExp`
compilation is the parameter `compileRegex`, returning `none` when
compilation throws, and a compiled regex is its test predicate. -/

/-- File classification kinds. -/
inductive FileKind where
  | generated
  | handler
  | service
  | dal
  | model
  | config
  | test
  | other
deriving DecidableEq

/-- A file classification (interface `FileClassification`). -/
structure FileClassification where
  path : Str
  kind : FileKind
deriving DecidableEq

/-- A routed file (interface `RoutedFile`). -/
structure RoutedFile where
  file : ChangedFile
  classification : FileClassification
deriving DecidableEq

/-- A fetched file content (interface `FileContent`). -/
structure FileContent where
  path : Str
  content : Str
  language : Str
deriving DecidableEq

/-- The input of one specialist (interface `SpecialistInput`); the
path-to-content `Map` is modelled as its lookup function. -/
structure SpecialistInput where
  specialist : SpecialistName
  routedFiles : List RoutedFile
  fileContentByPath : Str → Option FileContent
  policy : PolicyBundle

/-- Embedding of `isAllowlisted(path, ruleId, policy)`: an entry applies
when its path glob matches and it either has no `ruleIds` restriction, has
an empty one, or lists the rule id. -/
def isAllowlisted (globMatch : Str → Str → Bool) (path : Str) (ruleId : Str)
    (policy : PolicyBundle) : Bool :=
  policy.allowlist.any (fun entry =>
    if !(globMatch path entry.path) then false
    else
      match entry.ruleIds with
      | none => true
      | some ids => if ids.length = 0 then true else ids.contains ruleId)

/-- Embedding of `findLineByRegexInAddedLines(routedFile, regex)`. -/
def findLineByRegexInAddedLines (routedFile : RoutedFile) (rx : Str → Bool) : Nat :=
  match routedFile.file.addedLines.find? (fun l => rx l.content) with
  | some l => l.lineNumber
  | none =>
    match routedFile.file.addedLines with
    | [] => 1
    | l :: _ => l.lineNumber

/-- Embedding of `findLineByRegexInFile(content, regex)`. -/
def findLineByRegexInFile (content : Str) (rx : Str → Bool) : Nat :=
  match (jsSplitLines content).findIdx? (fun l => rx l) with
  | some i => i + 1
  | none => 1

/-- Embedding of `getTextTarget(rule, routedFile, fileContent)`. -/
def getTextTarget (rule : HardRule) (routedFile : RoutedFile) (fileContent : Option Str) : Str :=
  match rule.target with
  | RuleTarget.fileContent => fileContent.getD []
  | RuleTarget.addedLines => joinNL (routedFile.file.addedLines.map (fun l => l.content))

/-- Embedding of `getLineTarget(rule, routedFile, fileContent)`: the rule's
pattern is recompiled; on compilation failure the fallback is the first
added line's number (or 1). -/
def getLineTarget (compileRegex : Str → Option (Str → Bool)) (rule : HardRule)
    (routedFile : RoutedFile) (fileContent : Option Str) : Nat :=
  match compileRegex rule.pattern with
  | none =>
    match routedFile.file.addedLines with
    | [] => 1
    | l :: _ => l.lineNumber
  | some rx =>
    match rule.target with
    | RuleTarget.fileContent => findLineByRegexInFile (fileContent.getD []) rx
    | RuleTarget.addedLines => findLineByRegexInAddedLines routedFile rx

/-- The category filter of `applyHardRules`:
`rule.category === "any" || rule.category === input.specialist`. -/
def categoryMatches (rule : HardRule) (s : SpecialistName) : Bool :=
  match rule.category with
  | RuleCategory.any => true
  | RuleCategory.specialist c => c == s

/-- The violation flag: a forbidding rule is violated when its regex
matches the target text, a requiring rule when it does not. -/
def hardRuleViolated (rx : Str → Bool) (rule : HardRule) (routedFile : RoutedFile)
    (fileContent : Option Str) : Bool :=
  match rule.mode with
  | HardRuleMode.forbidRegex => rx (getTextTarget rule routedFile fileContent)
  | HardRuleMode.requireRegex => !(rx (getTextTarget rule routedFile fileContent))

/-- The body of the inner rule loop of `applyHardRules` for one routed
file and one (category-matching) rule: `none` models `continue`, `some`
models the pushed finding (built via `createFinding`, which copies its
parameters verbatim). -/
def hardRuleFinding (globMatch : Str → Str → Bool) (compileRegex : Str → Option (Str → Bool))
    (input : SpecialistInput) (routedFile : RoutedFile) (rule : HardRule) : Option Finding :=
  if !(globMatch routedFile.file.path rule.scope) then none
  else if isAllowlisted globMatch routedFile.file.path rule.id input.policy then none
  else
    match compileRegex rule.pattern with
    | none => none
    | some rx =>
      if hardRuleViolated rx rule routedFile
          ((input.fileContentByPath routedFile.file.path).map (fun fc => fc.content)) then
        some
          { ruleId := rule.id
            severity := rule.severity
            file := routedFile.file.path
            line := getLineTarget compileRegex rule routedFile
              ((input.fileContentByPath routedFile.file.path).map (fun fc => fc.content))
            title := rule.description
            explanation := rule.message.getD (("Hard rule violated: ").data ++ rule.id)
            suggestion := none
            category := some input.specialist
            agent := some (specialistStr input.specialist ++ ("-agent").data)
            evidence := some rule.pattern }
      else none

/-- Embedding of `applyHardRules(input)`: rules are filtered by category,
then for each routed file each surviving rule may contribute one finding. -/
def applyHardRules (globMatch : Str → Str → Bool) (compileRegex : Str → Option (Str → Bool))
    (input : SpecialistInput) : List Finding :=
  input.routedFiles.flatMap (fun routedFile =>
    (input.policy.hardRules.filter (fun r => categoryMatches r input.specialist)).filterMap
      (hardRuleFinding globMatch compileRegex input routedFile))

/-! ### Lemmas about applyHardRules -/

/-- An emitted hard-rule finding carries the rule's id and the file's
path. -/
theorem hardRuleFinding_fields (globMatch : Str → Str → Bool)
    (compileRegex : Str → Option (Str → Bool)) (input : SpecialistInput)
    (routedFile : RoutedFile) (rule : HardRule) (f : Finding)
    (h : hardRuleFinding globMatch compileRegex input routedFile rule = some f) :
    f.ruleId = rule.id ∧ f.file = routedFile.file.path := by
  unfold hardRuleFinding at h
  split at h
  · exact absurd h (by simp)
  · split at h
    · exact absurd h (by simp)
    · split at h
      · exact absurd h (by simp)
      · split at h
        · cases h
          exact ⟨rfl, rfl⟩
        · exact absurd h (by simp)

/-- Under a matching scope, no allowlisting and successful compilation, a
violated rule emits exactly the finding built from the rule. -/
theorem hardRuleFinding_emit (globMatch : Str → Str → Bool)
    (compileRegex : Str → Option (Str → Bool)) (input : SpecialistInput)
    (routedFile : RoutedFile) (rule : HardRule) (rx : Str → Bool)
    (hscope : globMatch routedFile.file.path rule.scope = true)
    (hallow : isAllowlisted globMatch routedFile.file.path rule.id input.policy = false)
    (hcomp : compileRegex rule.pattern = some rx)
    (hviol : hardRuleViolated rx rule routedFile
      ((input.fileContentByPath routedFile.file.path).map (fun fc => fc.content)) = true) :
    hardRuleFinding globMatch compileRegex input routedFile rule = some
      { ruleId := rule.id
        severity := rule.severity
        file := routedFile.file.path
        line := getLineTarget compileRegex rule routedFile
          ((input.fileContentByPath routedFile.file.path).map (fun fc => fc.content))
        title := rule.description
        explanation := rule.message.getD (("Hard rule violated: ").data ++ rule.id)
        suggestion := none
        category := some input.specialist
        agent := some (specialistStr input.specialist ++ ("-agent").data)
        evidence := some rule.pattern } := by
  unfold hardRuleFinding
  simp only [hscope, Bool.not_true, Bool.false_eq_true, if_false, hallow, hcomp, hviol, if_true]

/-- Under a matching scope, no allowlisting and successful compilation, an
unviolated rule emits nothing. -/
theorem hardRuleFinding_skip (globMatch : Str → Str → Bool)
    (compileRegex : Str → Option (Str → Bool)) (input : SpecialistInput)
    (routedFile : RoutedFile) (rule : HardRule) (rx : Str → Bool)
    (hscope : globMatch routedFile.file.path rule.scope = true)
    (hallow : isAllowlisted globMatch routedFile.file.path rule.id input.policy = false)
    (hcomp : compileRegex rule.pattern = some rx)
    (hviol : hardRuleViolated rx rule routedFile
      ((input.fileContentByPath routedFile.file.path).map (fun fc => fc.content)) = false) :
    hardRuleFinding globMatch compileRegex input routedFile rule = none := by
  unfold hardRuleFinding
  simp only [hscope, Bool.not_true, Bool.false_eq_true, if_false, hallow, hcomp, hviol, if_true]

/-- The per-file rule loop contributes no finding pretending to be another
rule: if no rule in the list has id `rid`, the count of findings keyed
(rid, any file) is zero. -/
theorem hardRule_countP_zero_of_ids (globMatch : Str → Str → Bool)
    (compileRegex : Str → Option (Str → Bool)) (input : SpecialistInput)
    (routedFile : RoutedFile) (rid fpath : Str) (rules : List HardRule)
    (hne : ∀ r ∈ rules, r.id ≠ rid) :
    ((rules.filterMap (hardRuleFinding globMatch compileRegex input routedFile)).countP
      (fun f => f.ruleId == rid && f.file == fpath)) = 0 := by
  rw [List.countP_eq_zero]
  intro f hf hp
  rcases List.mem_filterMap.mp hf with ⟨r, hr, hemit⟩
  have hfields := hardRuleFinding_fields globMatch compileRegex input routedFile r f hemit
  simp only [Bool.and_eq_true, beq_iff_eq] at hp
  exact hne r hr (by rw [← hfields.1]; exact hp.1)

/-- With duplicate-free rule ids, the per-file loop emits exactly one
finding keyed (rule.id, file path) when the rule's conditional emission
fires, and none otherwise. -/
theorem hardRule_countP_rules (globMatch : Str → Str → Bool)
    (compileRegex : Str → Option (Str → Bool)) (input : SpecialistInput)
    (routedFile : RoutedFile) (rule : HardRule) :
    ∀ rules : List HardRule, (rules.map (fun r => r.id)).Nodup → rule ∈ rules →
    ((rules.filterMap (hardRuleFinding globMatch compileRegex input routedFile)).countP
        (fun f => f.ruleId == rule.id && f.file == routedFile.file.path))
      = if (hardRuleFinding globMatch compileRegex input routedFile rule).isSome then 1
        else 0 := by
  intro rules
  induction rules with
  | nil => intro _ hmem; simp at hmem
  | cons r rest ih =>
    intro hnodup hmem
    have hnodup2 : (rest.map (fun r => r.id)).Nodup := (List.nodup_cons.mp hnodup).2
    have hhead : r.id ∉ rest.map (fun r => r.id) := (List.nodup_cons.mp hnodup).1
    rcases List.mem_cons.mp hmem with heq | hrest
    · subst heq
      have hrest0 : ∀ r2 ∈ rest, r2.id ≠ rule.id := by
        intro r2 hr2 hcontra
        exact hhead (hcontra ▸ List.mem_map.mpr ⟨r2, hr2, rfl⟩)
      simp only [List.filterMap_cons]
      cases hemit : hardRuleFinding globMatch compileRegex input routedFile rule with
      | none =>
        rw [hardRule_countP_zero_of_ids globMatch compileRegex input routedFile
          rule.id routedFile.file.path rest hrest0]
        simp
      | some f =>
        have hfields := hardRuleFinding_fields globMatch compileRegex input routedFile
          rule f hemit
        have hp : (f.ruleId == rule.id && f.file == routedFile.file.path) = true := by
          simp [hfields.1, hfields.2]
        rw [List.countP_cons]
        rw [hardRule_countP_zero_of_ids globMatch compileRegex input routedFile
          rule.id routedFile.file.path rest hrest0]
        simp [hp]
    · have hne : r.id ≠ rule.id := by
        intro hcontra
        exact hhead (hcontra ▸ List.mem_map.mpr ⟨rule, hrest, rfl⟩)
      simp only [List.filterMap_cons]
      cases hemit : hardRuleFinding globMatch compileRegex input routedFile r with
      | none => exact ih hnodup2 hrest
      | some f =>
        have hfields := hardRuleFinding_fields globMatch compileRegex input routedFile r f hemit
        have hp : (f.ruleId == rule.id && f.file == routedFile.file.path) = false := by
          have : (f.ruleId == rule.id) = false := by
            refine beq_eq_false_iff_ne.mpr ?_
            rw [hfields.1]
            exact hne
          simp [this]
        rw [List.countP_cons, hp]
        simp only [Bool.false_eq_true, if_false, Nat.add_zero]
        exact ih hnodup2 hrest

/-- Files whose path differs from the keyed path contribute no finding
with that key. -/
theorem hardRule_flatMap_countP_zero (globMatch : Str → Str → Bool)
    (compileRegex : Str → Option (Str → Bool)) (input : SpecialistInput) (rid fpath : Str) :
    ∀ rfs : List RoutedFile, (∀ r ∈ rfs, r.file.path ≠ fpath) →
    ((rfs.flatMap (fun r =>
        (input.policy.hardRules.filter (fun r2 => categoryMatches r2 input.specialist)).filterMap
          (hardRuleFinding globMatch compileRegex input r))).countP
      (fun f => f.ruleId == rid && f.file == fpath)) = 0 := by
  intro rfs hne
  rw [List.countP_eq_zero]
  intro f hf hp
  rcases List.mem_flatMap.mp hf with ⟨r, hr, hfm⟩
  rcases List.mem_filterMap.mp hfm with ⟨r2, _, hemit⟩
  have hfields := hardRuleFinding_fields globMatch compileRegex input r r2 f hemit
  simp only [Bool.and_eq_true, beq_iff_eq] at hp
  exact hne r hr (by rw [← hfields.2]; exact hp.2)

/-- With duplicate-free file paths, the full hard-rule pass counts, at the
key (rule id, file path), exactly the contribution of that file's own rule
loop. -/
theorem hardRule_flatMap_countP (globMatch : Str → Str → Bool)
    (compileRegex : Str → Option (Str → Bool)) (input : SpecialistInput)
    (rule : HardRule) (rf : RoutedFile) :
    ∀ rfs : List RoutedFile, (rfs.map (fun r => r.file.path)).Nodup → rf ∈ rfs →
    ((rfs.flatMap (fun r =>
        (input.policy.hardRules.filter (fun r2 => categoryMatches r2 input.specialist)).filterMap
          (hardRuleFinding globMatch compileRegex input r))).countP
      (fun f => f.ruleId == rule.id && f.file == rf.file.path))
      = (((input.policy.hardRules.filter
            (fun r2 => categoryMatches r2 input.specialist)).filterMap
          (hardRuleFinding globMatch compileRegex input rf)).countP
        (fun f => f.ruleId == rule.id && f.file == rf.file.path)) := by
  intro rfs
  induction rfs with
  | nil => intro _ hmem; simp at hmem
  | cons r rest ih =>
    intro hnodup hmem
    have hnodup2 : (rest.map (fun x => x.file.path)).Nodup := (List.nodup_cons.mp hnodup).2
    have hhead : r.file.path ∉ rest.map (fun x => x.file.path) := (List.nodup_cons.mp hnodup).1
    simp only [List.flatMap_cons, List.countP_append]
    rcases List.mem_cons.mp hmem with heq | hrest
    · subst heq
      have hrest0 : ∀ r2 ∈ rest, r2.file.path ≠ rf.file.path := by
        intro r2 hr2 hcontra
        exact hhead (hcontra ▸ List.mem_map.mpr ⟨r2, hr2, rfl⟩)
      rw [hardRule_flatMap_countP_zero globMatch compileRegex input
        rule.id rf.file.path rest hrest0]
      omega
    · have hne : r.file.path ≠ rf.file.path := by
        intro hcontra
        exact hhead (hcontra ▸ List.mem_map.mpr ⟨rf, hrest, rfl⟩)
      have hzero : (((input.policy.hardRules.filter
            (fun r2 => categoryMatches r2 input.specialist)).filterMap
          (hardRuleFinding globMatch compileRegex input r)).countP
        (fun f => f.ruleId == rule.id && f.file == rf.file.path)) = 0 := by
        rw [List.countP_eq_zero]
        intro f hf hp
        rcases List.mem_filterMap.mp hf with ⟨r2, _, hemit⟩
        have hfields := hardRuleFinding_fields globMatch compileRegex input r r2 f hemit
        simp only [Bool.and_eq_true, beq_iff_eq] at hp
        exact hne (by rw [← hfields.2]; exact hp.2)
      rw [hzero, ih hnodup2 hrest]
      omega

/-- With a compiled regex, the representative line is the first matching
added line for `added_lines` targets and the first matching file line for
`file_content` targets (with their respective defaults). -/
theorem getLineTarget_of_compiled (compileRegex : Str → Option (Str → Bool)) (rule : HardRule)
    (routedFile : RoutedFile) (fileContent : Option Str) (rx : Str → Bool)
    (hcomp : compileRegex rule.pattern = some rx) :
    (rule.target = RuleTarget.addedLines →
      getLineTarget compileRegex rule routedFile fileContent
        = findLineByRegexInAddedLines routedFile rx)
    ∧ (rule.target = RuleTarget.fileContent →
      getLineTarget compileRegex rule routedFile fileContent
        = findLineByRegexInFile (fileContent.getD []) rx) := by
  constructor
  · intro htarget
    unfold getLineTarget
    rw [hcomp, htarget]
  · intro htarget
    unfold getLineTarget
    rw [hcomp, htarget]

/-- Claim C3: for a hard rule whose category matches the specialist, whose
scope glob matches a routed file's path and whose (path, id) pair is not
allowlisted, with a compiling pattern, `applyHardRules` emits exactly one
finding keyed (rule id, file path) when the rule is violated
(`regex.test(text)` for forbid mode, its negation for require mode, on the
target text) and none otherwise; the emitted finding carries the rule's id
and severity and is located at the first added line matching the pattern
for `added_lines` targets and the first matching file line for
`file_content` targets. -/
theorem applyHardRules_correct (globMatch : Str → Str → Bool)
    (compileRegex : Str → Option (Str → Bool)) (input : SpecialistInput)
    (rf : RoutedFile) (rule : HardRule) (rx : Str → Bool)
    (hrule : rule ∈ input.policy.hardRules)
    (hcat : categoryMatches rule input.specialist = true)
    (hscope : globMatch rf.file.path rule.scope = true)
    (hallow : isAllowlisted globMatch rf.file.path rule.id input.policy = false)
    (hcomp : compileRegex rule.pattern = some rx)
    (hrf : rf ∈ input.routedFiles)
    (hpaths : (input.routedFiles.map (fun r => r.file.path)).Nodup)
    (hids : (input.policy.hardRules.map (fun r => r.id)).Nodup) :
    ((applyHardRules globMatch compileRegex input).countP
        (fun f => f.ruleId == rule.id && f.file == rf.file.path))
      = (if hardRuleViolated rx rule rf
            ((input.fileContentByPath rf.file.path).map (fun fc => fc.content)) = true
         then 1 else 0)
    ∧ (hardRuleViolated rx rule rf
          ((input.fileContentByPath rf.file.path).map (fun fc => fc.content)) = true →
        ∃ f ∈ applyHardRules globMatch compileRegex input,
          f.ruleId = rule.id ∧ f.file = rf.file.path ∧ f.severity = rule.severity
          ∧ (rule.target = RuleTarget.addedLines →
              f.line = findLineByRegexInAddedLines rf rx)
          ∧ (rule.target = RuleTarget.fileContent →
              f.line = findLineByRegexInFile
                (((input.fileContentByPath rf.file.path).map (fun fc => fc.content)).getD [])
                rx)) := by
  have hfilterNodup : ((input.policy.hardRules.filter
      (fun r2 => categoryMatches r2 input.specialist)).map (fun r => r.id)).Nodup :=
    List.Nodup.sublist
      (List.Sublist.map (fun r => r.id) (List.filter_sublist input.policy.hardRules)) hids
  have hrulemem : rule ∈ input.policy.hardRules.filter
      (fun r2 => categoryMatches r2 input.specialist) :=
    List.mem_filter.mpr ⟨hrule, hcat⟩
  constructor
  · have hflat := hardRule_flatMap_countP globMatch compileRegex input rule rf
      input.routedFiles hpaths hrf
    have hrules := hardRule_countP_rules globMatch compileRegex input rf rule
      (input.policy.hardRules.filter (fun r2 => categoryMatches r2 input.specialist))
      hfilterNodup hrulemem
    rw [show (applyHardRules globMatch compileRegex input).countP
          (fun f => f.ruleId == rule.id && f.file == rf.file.path)
        = ((input.routedFiles.flatMap (fun r =>
            (input.policy.hardRules.filter
              (fun r2 => categoryMatches r2 input.specialist)).filterMap
              (hardRuleFinding globMatch compileRegex input r))).countP
          (fun f => f.ruleId == rule.id && f.file == rf.file.path)) from rfl]
    rw [hflat, hrules]
    cases hviol : hardRuleViolated rx rule rf
        ((input.fileContentByPath rf.file.path).map (fun fc => fc.content)) with
    | true =>
      rw [hardRuleFinding_emit globMatch compileRegex input rf rule rx
        hscope hallow hcomp hviol]
      rfl
    | false =>
      rw [hardRuleFinding_skip globMatch compileRegex input rf rule rx
        hscope hallow hcomp hviol]
      rfl
  · intro hviol
    have hemit := hardRuleFinding_emit globMatch compileRegex input rf rule rx
      hscope hallow hcomp hviol
    have hline := getLineTarget_of_compiled compileRegex rule rf
      ((input.fileContentByPath rf.file.path).map (fun fc => fc.content)) rx hcomp
    refine ⟨_, List.mem_flatMap.mpr ⟨rf, hrf,
      List.mem_filterMap.mpr ⟨rule, hrulemem, hemit⟩⟩, rfl, rfl, rfl, ?_, ?_⟩
    · intro htarget
      exact hline.1 htarget
    · intro htarget
      exact hline.2 htarget

/-- The glob matcher of the C3 witness scenario: every scope matches. -/
def c3GlobAll : Str → Str → Bool := fun _ _ => true

/-- Substring containment test on character lists. -/
def strContainsSub (sub : Str) : Str → Bool
  | [] => sub.isEmpty
  | c :: rest => sub.isPrefixOf (c :: rest) || strContainsSub sub rest

/-- The compiled regex of the C3 witness scenario: a test for the literal
substring console.log. -/
def c3Regex : Str → Bool := fun s => strContainsSub (("console.log").data) s

/-- The regex compiler of the C3 witness scenario: it compiles exactly the
scenario pattern. -/
def c3Compile : Str → Option (Str → Bool) := fun pat =>
  if pat == ("console\\.log").data then some c3Regex else none

/-- The scenario hard rule: forbid console.log on added lines. -/
def c3Rule : HardRule :=
  ⟨("no-console").data, ("No console.log").data, ("**").data, Severity.warning,
    RuleSource.policy, RuleCategory.any, HardRuleMode.forbidRegex,
    ("console\\.log").data, RuleTarget.addedLines, none, true⟩

/-- The scenario changed file with one added line containing a
console.log call at line 5. -/
def c3File : ChangedFile :=
  ⟨("src/a.ts").data, FileStatus.modified, [],
    [⟨LineKind.add, 5, ("console.log(\"x\")").data⟩], [], []⟩

/-- The scenario routed file. -/
def c3Routed : RoutedFile := ⟨c3File, ⟨("src/a.ts").data, FileKind.other⟩⟩

/-- The scenario policy bundle holding only the scenario rule. -/
def c3Policy : PolicyBundle :=
  ⟨[], [c3Rule], [], [], ⟨10, ("m").data, 1000⟩,
    ⟨EnforcementMode.enforce, [Severity.critical], false, 20⟩, ⟨fun _ => ⟨true, 5⟩⟩⟩

/-- The scenario specialist input. -/
def c3Input : SpecialistInput :=
  ⟨SpecialistName.security, [c3Routed], fun _ => none, c3Policy⟩

/-- Witness for C3: the forbid-regex rule on pattern console backslash dot
log matched against the added line yields exactly one finding with the
rule's id at that line. -/
theorem applyHardRules_correct_witness :
    hardRuleViolated c3Regex c3Rule c3Routed
        ((c3Input.fileContentByPath c3Routed.file.path).map (fun fc => fc.content)) = true
    ∧ ((applyHardRules c3GlobAll c3Compile c3Input).countP
        (fun f => f.ruleId == c3Rule.id && f.file == c3Routed.file.path)) = 1
    ∧ (∃ f ∈ applyHardRules c3GlobAll c3Compile c3Input,
        f.ruleId = c3Rule.id ∧ f.line = 5) := by
  have h := applyHardRules_correct c3GlobAll c3Compile c3Input c3Routed c3Rule c3Regex
    (by decide) (by decide) rfl (by decide) rfl (by decide) (by decide) (by decide)
  refine ⟨by decide, ?_, ?_⟩
  · rw [h.1]
    decide
  · rcases h.2 (by decide) with ⟨f, hfmem, h1, h2, h3, h4, h5⟩
    refine ⟨f, hfmem, h1, ?_⟩
    rw [h4 rfl]
    decide

/-! ## C10: empty ruleIds allowlist entries -/

/-- An emitted hard-rule finding implies the (path, rule id) pair was not
allowlisted. -/
theorem hardRuleFinding_not_allowlisted (globMatch : Str → Str → Bool)
    (compileRegex : Str → Option (Str → Bool)) (input : SpecialistInput)
    (routedFile : RoutedFile) (rule : HardRule) (f : Finding)
    (h : hardRuleFinding globMatch compileRegex input routedFile rule = some f) :
    isAllowlisted globMatch routedFile.file.path rule.id input.policy = false := by
  unfold hardRuleFinding at h
  split at h
  · exact absurd h (by simp)
  · split at h
    · exact absurd h (by simp)
    · rename_i h2
      exact Bool.eq_false_iff.mpr h2

/-- Claim C10: an allowlist entry whose `ruleIds` field is present but an
empty array behaves exactly like an entry with no restriction: every rule
id is allowlisted for every path matching the entry's glob, and
consequently `applyHardRules` emits no finding for such a path. -/
theorem isAllowlisted_empty_ruleIds (globMatch : Str → Str → Bool) (policy : PolicyBundle)
    (entry : AllowlistEntry) (path : Str)
    (hentry : entry ∈ policy.allowlist)
    (hempty : entry.ruleIds = some [])
    (hglob : globMatch path entry.path = true) :
    (∀ ruleId : Str, isAllowlisted globMatch path ruleId policy = true)
    ∧ (∀ (compileRegex : Str → Option (Str → Bool)) (input : SpecialistInput),
        input.policy = policy →
        ∀ f ∈ applyHardRules globMatch compileRegex input, f.file ≠ path) := by
  have hall : ∀ ruleId : Str, isAllowlisted globMatch path ruleId policy = true := by
    intro ruleId
    unfold isAllowlisted
    refine List.any_eq_true.mpr ⟨entry, hentry, ?_⟩
    simp [hglob, hempty]
  refine ⟨hall, ?_⟩
  intro compileRegex input hpol f hf hcontra
  rcases List.mem_flatMap.mp hf with ⟨rf, hrf, hfm⟩
  rcases List.mem_filterMap.mp hfm with ⟨rule, _, hemit⟩
  have hfields := hardRuleFinding_fields globMatch compileRegex input rf rule f hemit
  have hnotallow := hardRuleFinding_not_allowlisted globMatch compileRegex input rf rule f hemit
  rw [hpol] at hnotallow
  have hpatheq : rf.file.path = path := by rw [← hfields.2]; exact hcontra
  rw [hpatheq] at hnotallow
  rw [hall rule.id] at hnotallow
  exact Bool.noConfusion hnotallow

/-- The allowlist entry of the C10 witness scenario: present but empty
ruleIds. -/
def c10Entry : AllowlistEntry := ⟨("src/**").data, some [], none⟩

/-- The policy of the C10 witness scenario. -/
def c10Policy : PolicyBundle :=
  ⟨[], [], [c10Entry], [], ⟨10, ("m").data, 1000⟩,
    ⟨EnforcementMode.enforce, [Severity.critical], false, 20⟩, ⟨fun _ => ⟨true, 5⟩⟩⟩

/-- Witness for C10: under the everything-matching glob, an arbitrary rule
id is allowlisted by the empty-ruleIds entry. -/
theorem isAllowlisted_empty_ruleIds_witness :
    c10Entry ∈ c10Policy.allowlist
    ∧ c10Entry.ruleIds = some []
    ∧ c3GlobAll (("src/a.ts").data) c10Entry.path = true
    ∧ isAllowlisted c3GlobAll (("src/a.ts").data) (("any-rule").data) c10Policy = true :=
  ⟨by decide, rfl, rfl,
    (isAllowlisted_empty_ruleIds c3GlobAll c10Policy c10Entry (("src/a.ts").data)
      (by decide) rfl rfl).1 (("any-rule").data)⟩

/-! ## Orchestrator (src/agents/orchestrator.ts) -/

/-- Embedding of `buildSummary(findings)`. -/
def buildSummary (findings : List Finding) : Str :=
  if findings.length = 0 then
    ("No semantic issues found by the multi-agent review pipeline.").data
  else
    ("Multi-agent review found ").data ++ numChars findings.length
    ++ (" issue(s): ").data
    ++ numChars (findings.filter (fun f => f.severity == Severity.critical)).length
    ++ (" critical, ").data
    ++ numChars (findings.filter (fun f => f.severity == Severity.warning)).length
    ++ (" warning, ").data
    ++ numChars (findings.filter (fun f => f.severity == Severity.info)).length
    ++ (" info.").data

/-- Embedding of `synthesizeFindings(input)`: dedupe, rank, summarize,
default pass count 1, zeroed token counters. -/
def synthesizeFindings (specialistFindings : List Finding) (passCount : Option Nat) :
    AnalysisResult :=
  { findings := rankFindings (dedupeFindings specialistFindings)
    summary := buildSummary (rankFindings (dedupeFindings specialistFindings))
    passCount := passCount.getD 1
    tokenUsage := ⟨0, 0⟩ }

/-- The fixed `SPECIALIST_ORDER` of the orchestrator. -/
def specialistOrder : List SpecialistName :=
  [SpecialistName.security, SpecialistName.loggingError, SpecialistName.architectureBoundary,
    SpecialistName.apiContract, SpecialistName.dataAccess, SpecialistName.reliability]

/-- The routing result (interface `DiffRoutingResult`), with the record of
per-specialist buckets modelled as a total function. -/
structure DiffRoutingResult where
  bySpecialist : SpecialistName → List RoutedFile
  generatedTouched : List RoutedFile

/-- The `Map` built from the changed-file contents list: later entries of
the same path overwrite earlier ones. -/
def contentLookup (files : List FileContent) (p : Str) : Option FileContent :=
  files.reverse.find? (fun f => f.path == p)

/-- Embedding of `runOrchestrator(input)`, parameterized by the six
specialist agent functions (one per specialist name): disabled specialists
are skipped, all findings are concatenated in specialist order, and the
synthesizer is called with `passCount: SPECIALIST_ORDER.length`. -/
def runOrchestrator (agents : SpecialistName → SpecialistInput → List Finding)
    (routing : DiffRoutingResult) (policy : PolicyBundle)
    (changedFileContents : List FileContent) : AnalysisResult :=
  synthesizeFindings
    (specialistOrder.flatMap (fun s =>
      if (policy.agents.specialists s).enabled then
        agents s
          { specialist := s
            routedFiles := routing.bySpecialist s
            fileContentByPath := contentLookup changedFileContents
            policy := policy }
      else []))
    (some specialistOrder.length)

/-- Mapping a list with pointwise-equal functions gives equal flatMaps. -/
theorem flatMap_congr_mem {α β : Type} (l : List α) (f g : α → List β)
    (h : ∀ a ∈ l, f a = g a) : l.flatMap f = l.flatMap g := by
  induction l with
  | nil => rfl
  | cons a rest ih =>
    simp only [List.flatMap_cons]
    rw [h a (by simp), ih (fun x hx => h x (List.mem_cons_of_mem a hx))]

/-- The policy of the C8 counterexample: all six specialists disabled. -/
def c8PolicyDisabled : PolicyBundle :=
  ⟨[], [], [], [], ⟨10, ("m").data, 1000⟩,
    ⟨EnforcementMode.enforce, [Severity.critical], false, 20⟩, ⟨fun _ => ⟨false, 5⟩⟩⟩

/-- The empty routing of the C8 scenario. -/
def c8Routing : DiffRoutingResult := ⟨fun _ => [], []⟩

/-- The trivial agent family of the C8 scenario. -/
def c8Agents : SpecialistName → SpecialistInput → List Finding := fun _ _ => []

/-- Counterexample to C8 as stated: with zero of the six specialists
enabled, zero specialists run, yet the returned pass count is 6
(`SPECIALIST_ORDER.length`), not the number of specialists that ran. -/
theorem runOrchestrator_passCount_counterexample :
    (specialistOrder.countP (fun s => (c8PolicyDisabled.agents.specialists s).enabled)) = 0
    ∧ (runOrchestrator c8Agents c8Routing c8PolicyDisabled []).passCount = 6 :=
  ⟨by decide, by decide⟩

/-- Claim C8 (amended): the orchestrator's pass count always equals the
total number of specialists in the fixed order (six), regardless of how
many are enabled; disabled specialists are skipped entirely, so the result
does not depend on the agent functions of disabled specialists. -/
theorem runOrchestrator_passCount (agents : SpecialistName → SpecialistInput → List Finding)
    (routing : DiffRoutingResult) (policy : PolicyBundle)
    (changedFileContents : List FileContent) :
    (runOrchestrator agents routing policy changedFileContents).passCount
        = specialistOrder.length
    ∧ (∀ agents2 : SpecialistName → SpecialistInput → List Finding,
        (∀ s : SpecialistName,
          (policy.agents.specialists s).enabled = true → agents s = agents2 s) →
        runOrchestrator agents routing policy changedFileContents
          = runOrchestrator agents2 routing policy changedFileContents) := by
  constructor
  · rfl
  · intro agents2 hag
    unfold runOrchestrator
    congr 1
    apply flatMap_congr_mem
    intro s _
    by_cases hs : (policy.agents.specialists s).enabled = true
    · rw [if_pos hs, if_pos hs, hag s hs]
    · rw [if_neg hs, if_neg hs]

/-- Witness for C8 (amended): with all specialists disabled the pass count
is still the full specialist count, and replacing the agent functions of
the (all disabled) specialists does not change the result. -/
theorem runOrchestrator_passCount_witness :
    (runOrchestrator c8Agents c8Routing c8PolicyDisabled []).passCount = specialistOrder.length
    ∧ runOrchestrator c8Agents c8Routing c8PolicyDisabled []
        = runOrchestrator (fun _ _ => [c7Finding]) c8Routing c8PolicyDisabled [] :=
  ⟨(runOrchestrator_passCount c8Agents c8Routing c8PolicyDisabled []).1,
    (runOrchestrator_passCount c8Agents c8Routing c8PolicyDisabled []).2
      (fun _ _ => [c7Finding]) (fun s hs => by simp [c8PolicyDisabled] at hs)⟩

end ReviewPilot
